import Mathlib

/-!
# Verification of the `niuniu` static-analysis engine (`src/niuniu/analyzer.py`)

A shallow embedding, in Lean 4, of the parts of `analyzer.py` that the frozen
claims C1–C10 are about:

* the reverse call graph (`_build_reverse_call_graph`),
* the sink-to-entry-point backtracking (`_trace_back`) and the depth plumbing
  in `find_vulnerabilities`,
* signature/rule matching (`_rule_matches`),
* chain scoring (`_score_chain`),
* the template scanner (`_scan_template_files`) together with its helpers
  `_is_false_positive`, `_analyze_context`, `_calculate_confidence`,
* the parsed-AST cache (`_parse_file_with_cache`).

Python strings are modelled as Lean `String`s, with all operations
re-implemented over `List Char` so that every definition is executable by the
kernel.  Python floats are modelled as rationals (every constant appearing in
the scoring code is a small decimal).  Python dicts keyed by strings are
modelled as insertion-ordered association lists.  `while` loops are modelled by
structural recursion, and the breadth-first queue loop of `_trace_back` by a
fuel-indexed recursion (all claims about it are safety properties, which hold
for every fuel value).  Regular expressions compiled from rule patterns are
abstracted as Boolean line predicates (`String → Bool`), except for the three
masked-credential patterns of `_is_false_positive`, which are implemented
directly.
-/

/-! ## String helpers (Python `str` operations over `List Char`) -/

/-- Python `c in s` for a single character. -/
def containsChar (s : String) (c : Char) : Bool := s.data.any (· = c)

/-- Python `needle in hay` (substring containment). -/
def containsSub (hay needle : String) : Bool :=
  hay.data.tails.any (fun t => needle.data.isPrefixOf t)

/-- Python `s.lower()` (ASCII, which is all the engine's keyword tables use). -/
def strLower (s : String) : String := String.mk (s.data.map Char.toLower)

/-- Python `s.upper()`. -/
def strUpper (s : String) : String := String.mk (s.data.map Char.toUpper)

/-- Python `s.strip()`: drop leading and trailing whitespace. -/
def strStrip (s : String) : String :=
  String.mk (((s.data.dropWhile Char.isWhitespace).reverse.dropWhile
    Char.isWhitespace).reverse)

/-- Python `s.startswith(pre)`. -/
def strStartsWith (s pre : String) : Bool := pre.data.isPrefixOf s.data

/-- Python `s.endswith(suf)`. -/
def strEndsWith (s suf : String) : Bool := suf.data.isSuffixOf s.data

/-- Python `s.count(c)` for a single character. -/
def countChar (s : String) (c : Char) : Nat := (s.data.filter (· = c)).length

/-- Python `len(s)`. -/
def strLen (s : String) : Nat := s.data.length

/-- Split on every occurrence of `c`; Python `s.split(c)` (always non-empty). -/
def splitCharAux (c : Char) : List Char → List Char → List String
  | [], acc => [String.mk acc.reverse]
  | x :: xs, acc =>
      if x = c then String.mk acc.reverse :: splitCharAux c xs []
      else splitCharAux c xs (x :: acc)

def splitChar (c : Char) (s : String) : List String := splitCharAux c s.data []

/-- Python `s.split(c)[-1]` (the split list is never empty). -/
def lastSegment (c : Char) (s : String) : String := (splitChar c s).getLastD ""

/-- Python `s.split(c, 1)` when `c` occurs in `s`: the text before the first
occurrence of `c` and the text after it. -/
def splitOnceAux (c : Char) : List Char → List Char → String × String
  | [], acc => (String.mk acc.reverse, "")
  | x :: xs, acc =>
      if x = c then (String.mk acc.reverse, String.mk xs)
      else splitOnceAux c xs (x :: acc)

def splitOnce (c : Char) (s : String) : String × String := splitOnceAux c s.data []

/-- Python `''.join(xs)`. -/
def joinAll (xs : List String) : String := String.join xs

/-- Python `' '.join(xs)`. -/
def joinSpace : List String → String
  | [] => ""
  | [x] => x
  | x :: xs => x ++ " " ++ joinSpace xs

/-- Python `xs[a:b]` on lists. -/
def pySlice (xs : List String) (a b : Nat) : List String := (xs.drop a).take (b - a)

/-- Python `hay.find(needle, start)` restricted to indices `≥ start`:
the least index `i ≥ start` at which `needle` occurs, if any. -/
def findSubFromAux (pat : List Char) : List Char → Nat → Option Nat
  | [], i => if pat.isEmpty then some i else none
  | x :: xs, i =>
      if pat.isPrefixOf (x :: xs) then some i
      else findSubFromAux pat xs (i + 1)

def findSubFrom (hay pat : List Char) (start : Nat) : Option Nat :=
  (findSubFromAux pat (hay.drop start) start)

/-- Python `hay.find(needle)`. -/
def findSub (hay pat : List Char) : Option Nat := findSubFrom hay pat 0

/-- Python `hay.rfind(needle, 0, stop)`: the greatest index `i` with
`i + len(needle) ≤ stop` at which `needle` occurs, if any. -/
def rfindSubBefore (hay pat : List Char) (stop : Nat) : Option Nat :=
  let candidates := (List.range (stop + 1)).filter
    (fun i => i + pat.length ≤ stop && pat.isPrefixOf (hay.drop i))
  candidates.getLast?

/-! ## Signatures and the call graph

A `Sig` is the engine's `"Class:method"` node identifier, kept split into its
two components (the code joins and re-splits them with `split(':', 1)`). -/

structure Sig where
  cls : String
  mtd : String
deriving DecidableEq, Repr

/-- The forward call graph: Python `Dict[str, List[str]]` as an
insertion-ordered association list (`caller ↦ callees`). -/
abbrev CallGraph := List (Sig × List Sig)

/-- Dict lookup with `[]` default, as in `self.reverse_call_graph.get(x, [])`. -/
def lookupCG (g : CallGraph) (k : Sig) : List Sig :=
  match g.find? (fun p => k = p.1) with
  | some p => p.2
  | none => []

/-- One step of the inversion loop of `_build_reverse_call_graph`:
`self.reverse_call_graph.setdefault(callee, []).append(caller)` (the Python
code spells the setdefault out with an `in` test). -/
def addEdge : CallGraph → Sig → Sig → CallGraph
  | [], callee, caller => [(callee, [caller])]
  | (k, v) :: rest, callee, caller =>
      if k = callee then (k, v ++ [caller]) :: rest
      else (k, v) :: addEdge rest callee caller

/-- `_build_reverse_call_graph` (analyzer.py lines 421–429): invert every edge
of the forward graph, then deduplicate each caller list (the source uses
`list(set(...))`, whose enumeration order is unspecified; `List.dedup` keeps
the same membership and the no-duplicates property). -/
def build_reverse_call_graph (cg : CallGraph) : CallGraph :=
  (cg.foldl (fun rev p => p.2.foldl (fun r callee => addEdge r callee p.1) rev) []).map
    (fun p => (p.1, p.2.dedup))

/-- The edge relation of the forward graph, reading every entry. -/
def HasEdge (cg : CallGraph) (c e : Sig) : Prop :=
  ∃ es, (c, es) ∈ cg ∧ e ∈ es

/-! ## `_trace_back` (analyzer.py lines 431–473)

Breadth-first backtracking from a sink through the reverse call graph.  A queue
entry is `(current_path, current_depth, path_nodes)`; the `start_ts` timestamp
carried by the source is dead (its timeout check is commented out) and the
`max_seconds` read is unused, so both are omitted.  The `while queue:` loop is
modelled with a fuel parameter; every claim proved about it is a safety
property that holds for all fuel values. -/

abbrev QEntry := List Sig × Nat × List Sig

/-- The `for caller in caller_methods:` body of `_trace_back`, threading the
mutable `visited_states`, `queue` and `paths` through the iteration.  `entry`
is `is_entry_point`, `hasParams` is `is_has_parameters` (the source splits the
caller string back into class and method before calling it). -/
def processCallers (entry hasParams : Sig → Bool)
    (path : List Sig) (depth : Nat) (nodes : List Sig) :
    List Sig → List (Sig × Nat) → List QEntry → List (List Sig) →
      List (Sig × Nat) × List QEntry × List (List Sig)
  | [], visited, queue, paths => (visited, queue, paths)
  | caller :: rest, visited, queue, paths =>
      if caller ∈ nodes then
        processCallers entry hasParams path depth nodes rest visited queue paths
      else if (caller, depth + 1) ∈ visited then
        processCallers entry hasParams path depth nodes rest visited queue paths
      else
        let visited' := visited ++ [(caller, depth + 1)]
        if hasParams caller = false then
          processCallers entry hasParams path depth nodes rest visited' queue paths
        else if entry caller then
          processCallers entry hasParams path depth nodes rest visited' queue
            (paths ++ [caller :: path])
        else
          processCallers entry hasParams path depth nodes rest visited'
            (queue ++ [(caller :: path, depth + 1, nodes ++ [caller])]) paths

/-- The `while queue:` loop of `_trace_back`.  `rcg` is
`self.reverse_call_graph`, `stop` the value returned by `self.should_stop()`
(a predicate polled at the top of every iteration; modelled as the constant
answer it gives during the run). -/
def traceLoop (rcg : CallGraph) (entry hasParams : Sig → Bool) (stop : Bool)
    (effDepth : Nat) :
    Nat → List QEntry → List (Sig × Nat) → List (List Sig) → List (List Sig)
  | 0, _, _, paths => paths
  | _ + 1, [], _, paths => paths
  | fuel + 1, (path, depth, nodes) :: queue, visited, paths =>
      if stop then paths
      else if effDepth ≤ depth then
        traceLoop rcg entry hasParams stop effDepth fuel queue visited paths
      else
        let callers := lookupCG rcg (path.headD ⟨"", ""⟩)
        let r := processCallers entry hasParams path depth nodes callers visited queue paths
        traceLoop rcg entry hasParams stop effDepth fuel r.2.1 r.1 r.2.2

/-- Line 442 of `_trace_back`:
`effective_max_depth = max(max_depth, 15) if max_depth < 10 else max_depth`. -/
def effectiveMaxDepth (maxDepth : Nat) : Nat :=
  if maxDepth < 10 then max maxDepth 15 else maxDepth

/-- `_trace_back(sink, max_depth)`: initial queue `[([sink], 0, {sink})]`,
empty `visited_states`, empty `paths`. -/
def trace_back (rcg : CallGraph) (entry hasParams : Sig → Bool) (stop : Bool)
    (sink : Sig) (maxDepth fuel : Nat) : List (List Sig) :=
  traceLoop rcg entry hasParams stop (effectiveMaxDepth maxDepth) fuel
    [([sink], 0, [sink])] [] []

/-- `find_vulnerabilities` lines 1434–1436: `depth = self.rules.get('depth', 15)`
followed by `depth = max(depth, 15)`; this is the value passed to
`_trace_back` for every sink. -/
def find_vulnerabilities_depth (configured : Nat) : Nat := max configured 15

/-- What C1 asserts of an emitted chain. -/
def GoodPath (sink : Sig) (effDepth : Nat) (entry : Sig → Bool) (c : List Sig) : Prop :=
  c.Nodup ∧ (∃ h t, c = h :: t ∧ entry h = true) ∧
    c.getLast? = some sink ∧ c.length ≤ effDepth + 1

/-- Invariant of a queue entry. -/
def GoodEntry (sink : Sig) (effDepth : Nat) (q : QEntry) : Prop :=
  q.1.Nodup ∧ q.1.getLast? = some sink ∧ q.1.length = q.2.1 + 1 ∧
    q.2.1 ≤ effDepth ∧ (∀ x, x ∈ q.2.2 ↔ x ∈ q.1)

/-! ## `_rule_matches` (analyzer.py lines 484–546)

A rule dict is modelled by the list the requested key (`sinks` / `sources` /
`sanitizers`) maps to, together with the three optional `*_name` fields (a
missing or falsy value is modelled by `""`, which is exactly what Python's
`or`-chaining treats as absent). -/

structure MatchRule where
  items : List String
  sanitizer_name : String
  source_name : String
  sink_name : String
deriving DecidableEq, Repr

/-- `r.get('sanitizer_name') or r.get('source_name') or r.get('sink_name') or s`. -/
def hitName (r : MatchRule) (s : String) : String :=
  if r.sanitizer_name ≠ "" then r.sanitizer_name
  else if r.source_name ≠ "" then r.source_name
  else if r.sink_name ≠ "" then r.sink_name
  else s

/-- `_rule_matches(sig, rules, key)`: returns the deduplicated list of matched
rule names, in hit order. -/
def rule_matches (sig : String) (rules : List MatchRule) : List String :=
  if sig = "" ∨ ¬ containsChar sig ':' then []
  else
    let cls := strStrip (splitOnce ':' sig).1
    let mtd := strStrip (splitOnce ':' sig).2
    if cls = "" ∨ mtd = "" then []
    else
      rules.foldl (fun hits r =>
        if r.items = [] then hits
        else r.items.foldl (fun hits s =>
          if ¬ containsChar s ':' then hits
          else
            let sc := strStrip (splitOnce ':' s).1
            let sm := strStrip (splitOnce ':' s).2
            let cls_short := lastSegment '.' cls
            let sc_short := lastSegment '.' sc
            let methods := (splitChar '|' sm).map strStrip
            if (cls = sc ∨ cls_short = sc_short) ∧ mtd ∈ methods then
              let hit := hitName r s
              if hit ≠ "" ∧ hit ∉ hits then hits ++ [hit] else hits
            else hits) hits) []

/-! ## `_score_chain` (analyzer.py lines 649–697)

The sanitizer / source / pattern evidence is produced by `_is_sanitized`,
`_find_sources` and `_get_pattern_hits` respectively, which read the loaded
rule bundle; they are abstracted here as the functions `isSanitized`,
`findSources`, `getPatternHits` from chains to name lists (quantifying over
them quantifies over rule bundles).  Scores are rationals: every constant in
the source is a small decimal and only `+`, `-`, `max`, `min` are applied. -/

def score_chain (isSanitized findSources getPatternHits : List Sig → List String)
    (chain : List Sig) (sink_name : String) : ℚ :=
  if chain = [] then 0
  else
    let sink_name_upper := strUpper sink_name
    let score : ℚ := 1
    let sanitizers := isSanitized chain
    let score := if sanitizers ≠ [] then
        (if 2 ≤ sanitizers.length then score - 1/2 else score - 2/5)
      else score
    let sources := findSources chain
    let score := if sources ≠ [] then
        (if 2 ≤ sources.length then score + 2/5 else score + 3/10)
      else score
    let pattern_hits := getPatternHits chain
    let score := if sink_name_upper = "SQLI" ∧
        ("SQL_CONCAT" ∈ pattern_hits ∨ "SQL_CONCAT_TEXT" ∈ pattern_hits) then
        score + 3/10
      else score
    let score := if 20 < chain.length then score - 1/10 else score
    let score := if chain.length < 3 then score + 1/10 else score
    max 0 (min 1 score)

/-! ## `_parse_file_with_cache` (analyzer.py lines 296–331)

Only the cache bookkeeping matters for C10: the cache maps a file path to a
`(tree, timestamp)` pair, and only the timestamp is relevant.  `CACHE_TTL`
is 300 seconds.  A call either serves a fresh cache hit (no mutation), fails
to parse (`parseOk = false`, no mutation), or stores `(path, now)` and then,
if more than 1000 entries are present, deletes the first at-most-100 entries
whose age exceeds the TTL (dict order; the expired keys are distinct, so
deleting them one by one is a filter). -/

abbrev Cache := List (String × ℚ)

def cacheLookup (c : Cache) (p : String) : Option ℚ :=
  (c.find? (fun e => p = e.1)).map (·.2)

/-- Python dict assignment `cache[path] = (tree, now)`: update in place,
or append when absent. -/
def cacheInsert : Cache → String → ℚ → Cache
  | [], p, t => [(p, t)]
  | (k, v) :: rest, p, t =>
      if k = p then (k, t) :: rest else (k, v) :: cacheInsert rest p t

def cacheEvictExpired (c1 : Cache) (now : ℚ) : Cache :=
  if 1000 < c1.length then
    c1.filter (fun e =>
      e.1 ∉ ((c1.filter (fun e2 => 300 < now - e2.2)).map (·.1)).take 100)
  else c1

def cacheAfterParse (cache : Cache) (path : String) (now : ℚ) : Cache :=
  cacheEvictExpired (cacheInsert cache path now) now

/-- One call of `_parse_file_with_cache` at wall-clock time `now`; `parseOk`
tells whether `javalang.parse.parse` succeeded. -/
def parse_file_with_cache_step (cache : Cache) (path : String) (now : ℚ)
    (parseOk : Bool) : Cache :=
  match cacheLookup cache path with
  | some t =>
      if now - t < 300 then cache
      else if parseOk then cacheAfterParse cache path now else cache
  | none => if parseOk then cacheAfterParse cache path now else cache

/-- A sequence of calls on successfully parsed files, all at time `t`. -/
def cacheInsertAll (paths : List String) (t : ℚ) (c : Cache) : Cache :=
  paths.foldl (fun c p => parse_file_with_cache_step c p t true) c

/-! ## The template scanner (`_scan_template_files`, analyzer.py lines 1002–1430)

Modelling decisions, in addition to the global ones:

* **Scores in hundredths.**  Every score constant in the scanner
  (`0.5, 0.25, 0.3, 0.05, …`) is an exact multiple of `0.05`, and scores are
  only added, subtracted, clamped to `[0,1]` and compared; so an integer `s`
  here models the Python float `s/100` exactly, and `round(conf, 2)` is the
  identity.  (Lean's kernel cannot reduce `Rat` arithmetic, `ℤ` keeps every
  definition executable by `decide`.)
* **Compiled regexes** become Boolean line predicates (`String → Bool`),
  and the hint vocabulary (`BASE_HINTS` plus the alphanumeric tokens of the
  rule's patterns, lower-cased) becomes rule data `hints`.
* **Files**: a `TFile` is one file as the walker delivers it, with its
  basename (for the extension), project-relative path, and `readlines()`
  content (each line keeping its trailing newline).  The `os.walk` skip-dir,
  file-size and resource-limiter filtering happen before this model.
* **`should_stop`** is the constant answer the stop predicate gives during
  the scan, polled exactly where the source polls it (top of the line loop
  and of the pattern loop; the FORM_NO_CSRF block loop never polls it).
* Missing/falsy rule strings (`rule.get('name')` etc.) are modelled by `""`,
  matching how Python `or`-defaulting treats them. -/

structure TRule where
  name : String
  vul_type : String
  desc : String
  severity : String
  file_path : String
  patterns : List (String → Bool)
  hints : List String
  force_regex : Bool
  must_substrings : List String
  exclude_substrings : List String
  file_exts : List String

structure TFile where
  name : String
  rel : String
  lines : List String

structure Finding where
  vul_type : String
  sink_desc : String
  severity : String
  sink : String
  chain_count : Nat
  confidence : ℤ
  file_path : String
  group_lines : List Nat
  line : Nat
  scan_mode : String
deriving DecidableEq, Repr

/-- The dedup key `(rule_name, rel_path, line_no)` of the `seen` set. -/
abbrev SeenKey := String × String × Nat

/-- `per_file_rule_count`, a dict keyed by `(rule_name, rel_path)`. -/
abbrev CountMap := List ((String × String) × Nat)

def countGet (m : CountMap) (k : String × String) : Nat :=
  match m.find? (fun e => k = e.1) with
  | some e => e.2
  | none => 0

def countBump : CountMap → String × String → CountMap
  | [], k => [(k, 1)]
  | (k', n) :: rest, k =>
      if k' = k then (k', n + 1) :: rest else (k', n) :: countBump rest k

/-- The mutable sets and accumulators of one `_scan_template_files` run. -/
structure ScanSt where
  seen : List SeenKey
  counts : CountMap
  fileVul : List (String × String)
  findings : List Finding

structure ScanCfg where
  lite : Bool
  applyMust : Bool
  stop : Bool

/-- `PER_FILE_RULE_CAP = 1 if is_lite_mode else 5`. -/
def perFileRuleCap (cfg : ScanCfg) : Nat := if cfg.lite then 1 else 5

/-- `MAX_REGEX_EVALS_PER_FILE = 500 if is_lite_mode else 2000`. -/
def maxRegexEvals (cfg : ScanCfg) : Nat := if cfg.lite then 500 else 2000

/-- `CONTEXT_WINDOW = 15` (both modes; the source writes
`15 if not is_lite_mode else 15`). -/
def CONTEXT_WINDOW : Nat := 15

/-- How many of the keywords occur in the text (each counted once). -/
def countPresent (kws : List String) (text : String) : Nat :=
  (kws.filter (fun k => containsSub text k)).length

/-- Python `\s*` at the head of a char list. -/
def skipWS (s : List Char) : List Char := s.dropWhile Char.isWhitespace

/-- The single-quote character (written via its code point to keep the
source free of quoted apostrophes). -/
def squoteChar : Char := Char.ofNat 39

/-- One anchored attempt of the masked-credential pattern
`kw\s*=\s*["']?\*+["']?` of `_is_false_positive` (the trailing `["']?` always
matches and is dropped; the optional quote backtracks, so a match needs a `*`
right after the optional quote). -/
def maskedCredMatchAt (kw : List Char) (s : List Char) : Bool :=
  if kw.isPrefixOf s then
    match skipWS (s.drop kw.length) with
    | '=' :: r2 =>
        (match skipWS r2 with
         | [] => false
         | c :: rest =>
             if c = '*' then true
             else if c = '"' || c = squoteChar then
               (match rest with
                | '*' :: _ => true
                | _ => false)
             else false)
    | _ => false
  else false

/-- `re.search(kw + r'\s*=\s*["\']?\*+["\']?', line, re.I)`. -/
def maskedCredSearch (kw : String) (line : String) : Bool :=
  (strLower line).data.tails.any (fun t => maskedCredMatchAt kw.data t)

/-- `_is_false_positive(line, lines, line_no, context_window, rule)`
(analyzer.py lines 699–756). -/
def is_false_positive (line : String) (lines : List String) (line_no : Nat)
    (context_window : Nat) (rule : TRule) : Bool :=
  let line_stripped := strStrip line
  let line_lower := strLower line
  if strStartsWith line_stripped "//" || strStartsWith line_stripped "#" then true
  else
    let ctx_hit :=
      if 0 < context_window then
        let context_start := line_no - context_window - 1
        let context_end := min lines.length (line_no + context_window)
        let context := joinAll (pySlice lines context_start context_end)
        match findSub context.data line.data with
        | some line_pos =>
            let before_line := String.mk (context.data.take line_pos)
            if containsSub before_line "<!--" && !containsSub before_line "-->" then
              true
            else
              let comment_start := rfindSubBefore context.data ['/', '*'] line_pos
              let comment_end := findSubFrom context.data ['*', '/'] line_pos
              comment_start.isSome &&
                (comment_end.isNone || line_pos < comment_end.getD 0)
        | none => false
      else false
    if ctx_hit then true
    else if countChar line '"' % 2 = 0 && countChar line squoteChar % 2 = 0 &&
        strStartsWith line_stripped "\"" && strEndsWith line_stripped "\"" &&
        !(containsSub line "$\x7b" || containsSub line "<%=" || containsSub line "$!") then
      true
    else if (["test", "mock", "stub", "fake", "dummy", "example"].any
          (fun t => containsSub line_lower t)) &&
        containsSub (strLower rule.file_path) "test" then
      true
    else
      ["password", "secret", "key"].any (fun kw => maskedCredSearch kw line)

def clamp100 (s : ℤ) : ℤ := max 0 (min 100 s)

def input_sources : List String :=
  ["request.getparameter", "request.get", "request.getinputstream",
   "request.getreader", "request.getattribute", "session.getattribute",
   "param.", "header.", "cookie."]

def sanitizer_keywords : List String :=
  ["escapehtml", "htmlutils", "stringescapeutils",
   "owasp.encoder", "sanitize", "filter", "encode", "encodeurl",
   "encodeuri", "escapexml", "escapejavascript", "escapejava",
   "preparedstatement", "parameterized", "setstring", "setint",
   "setparameter", "escapelike", "quote", "canonicalize"]

/-- `_analyze_context(lines, line_no, context_window, rule)` (analyzer.py
lines 758–880).  The returned context score is in hundredths. -/
def analyze_context (lines : List String) (line_no : Nat) (context_window : Nat)
    (rule : TRule) : ℤ :=
  if context_window = 0 ∨ line_no < 1 ∨ lines.length < line_no then 50
  else
    let context_start := line_no - context_window - 1
    let context_end := min lines.length (line_no + context_window)
    let context_lines := pySlice lines context_start context_end
    let context_text := strLower (joinSpace context_lines)
    let vul_type := strUpper rule.vul_type
    let rule_name := strUpper rule.name
    let is_jsp_context := (context_lines.take 5).any (fun l =>
      containsSub (strLower l) "jsp" || containsSub (strLower l) "jspx")
    let score : ℤ := 50
    let score := if is_jsp_context ∧
        (containsSub vul_type "XSS" ∨ containsSub vul_type "INJECTION") then
      score + 10 else score
    -- 1. SQL injection context
    let score := if containsSub vul_type "SQLI" ∨ containsSub rule_name "SQL" then
      let score := if ["select", "from", "where", "insert", "update", "delete",
          "executequery", "preparedstatement"].any (containsSub context_text ·) then
        score + 20 else score
      let score := if containsSub context_text "request.getparameter" ∨
          containsSub context_text "request.get" then score + 20 else score
      if containsSub context_text "stringbuilder" ∨
          containsSub context_text "stringbuffer" then score + 10 else score
    else score
    -- 2. XSS context
    let score := if containsSub vul_type "XSS" then
      let score := if ["out.print", "response.getwriter", "document.write",
          "innerhtml"].any (containsSub context_text ·) then score + 20 else score
      let score := if containsSub context_text "request.getparameter" then
        score + 20 else score
      if ["escapehtml", "encode", "sanitize", "escape"].any
          (containsSub context_text ·) then score - 30 else score
    else score
    -- 3. path traversal context
    let score := if containsSub vul_type "PATH_TRAVERSAL" ∨
        containsSub rule_name "FILE" then
      let score := if ["../", "..\\", "getrealpath", "file", "filestream"].any
          (containsSub context_text ·) then score + 20 else score
      let score := if containsSub context_text "request.getparameter" then
        score + 20 else score
      if ["canonical", "normalize", "getcanonical"].any
          (containsSub context_text ·) then score - 30 else score
    else score
    -- 4. RCE context
    let score := if containsSub vul_type "RCE" then
      let score := if ["runtime.exec", "processbuilder", "command", "exec"].any
          (containsSub context_text ·) then score + 30 else score
      if containsSub context_text "request.getparameter" then score + 20 else score
    else score
    -- 5. deserialization context
    let score := if containsSub vul_type "UNSERIALIZE" ∨
        containsSub rule_name "DESERIALIZE" then
      let score := if ["readobject", "objectinputstream", "json.parse",
          "fastjson"].any (containsSub context_text ·) then score + 20 else score
      if containsSub context_text "request.getinputstream" ∨
          containsSub context_text "request.getreader" then score + 20 else score
    else score
    -- 6. JSP / EL injection context
    let score := if containsSub vul_type "EL_INJECTION" ∨
        containsSub rule_name "JSP" then
      let score := if ["$\x7b", "<%=", "param.", "requestscope",
          "sessionScope"].any (containsSub context_text ·) then score + 15 else score
      if containsSub context_text "out.print" ∨
          containsSub context_text "response.getwriter" then score + 10 else score
    else score
    -- 7. user input sources
    let input_count := countPresent input_sources context_text
    let score := if 2 ≤ input_count then score + 15
      else if 1 ≤ input_count then score + 10 else score
    -- 8. sanitizer damping
    let sanitizer_count := countPresent sanitizer_keywords context_text
    let score := if 2 ≤ sanitizer_count then score - 40
      else if 1 ≤ sanitizer_count then
        let sanitizer_positions := (context_lines.enum.filter (fun p =>
          sanitizer_keywords.any (fun kw => containsSub (strLower p.2) kw))).map (·.1)
        let current_pos := line_no - context_start - 1
        match sanitizer_positions.min? with
        | some m => if m < current_pos then score - 30 else score - 20
        | none => score - 20
      else score
    -- 9. exception handling / logging
    let score := if ["catch", "exception", "logger", "log.", "printstacktrace"].any
        (containsSub context_text ·) then score - 10 else score
    -- 10. JSP scriptlet detection
    let score := if ((containsSub context_text "<%" ∧ containsSub context_text "%>") ∨
        containsSub context_text "<jsp:") ∧
        containsSub context_text "request.getparameter" then score + 10 else score
    clamp100 score

/-- One entry of the `dangerous_patterns` table applied to the running score
(`_calculate_confidence` step 4): `+0.25` for two or more hits of a family
whose tag occurs in the vul_type, `+0.15` for one. -/
def dangerousStep (vul_type line_lower : String) (sc : ℤ) (p : String × List String) : ℤ :=
  if containsSub vul_type p.1 then
    if 2 ≤ countPresent p.2 line_lower then sc + 25
    else if 1 ≤ countPresent p.2 line_lower then sc + 15
    else sc
  else sc

/-- `dangerous_patterns`, in dict insertion order. -/
def dangerous_patterns : List (String × List String) :=
  [("SQLI", ["executequery", "executestatement", "preparedstatement",
      "createstatement", "executeupdate", "executebatch", "query", "update",
      "jdbctemplate", "hibernate"]),
   ("XSS", ["print", "println", "write", "innerhtml", "getwriter", "out.print",
      "response.getwriter", "document.write", "eval"]),
   ("RCE", ["exec", "eval", "runtime", "processbuilder", "getruntime", "command"]),
   ("PATH_TRAVERSAL", ["../", "..\\", "filestream", "fileoutputstream",
      "filewriter", "fileinputstream", "filereader", "getrealpath",
      "getcanonicalpath"]),
   ("XXE", ["documentbuilder", "saxparser", "dom4j", "jdom", "xpath", "xmlreader"]),
   ("DESERIALIZE", ["readobject", "objectinputstream", "readresolve",
      "readunsafe", "fastjson", "jackson", "gson", "xstream"])]

/-- The input/output-keyword bonus ladder of `_calculate_confidence` step 5. -/
def ioBonus (ic oc : Nat) (sc : ℤ) : ℤ :=
  if 2 ≤ ic ∧ 1 ≤ oc then sc + 30
  else if 1 ≤ ic ∧ 1 ≤ oc then sc + 20
  else if 2 ≤ ic then sc + 15
  else if 1 ≤ ic ∨ 1 ≤ oc then sc + 10
  else sc

/-- The Spring-stereotype bonus ladder of `_calculate_confidence` step 6. -/
def springBonus (sp : Nat) (sc : ℤ) : ℤ :=
  if 2 ≤ sp then sc + 10 else if 1 ≤ sp then sc + 5 else sc

def input_keywords : List String :=
  ["request", "parameter", "input", "getparameter", "getinputstream",
   "getattribute", "getheader", "getcookie", "requestparam", "pathvariable",
   "requestbody", "queryparam", "bodytomono", "getquery", "getpathinfo"]

def output_keywords : List String :=
  ["response", "output", "print", "write", "send", "setheader",
   "getwriter", "sendredirect", "forward", "render", "view", "model"]

def spring_patterns : List String :=
  ["@requestmapping", "@getmapping", "@postmapping", "@putmapping",
   "@deletemapping", "@requestparam", "@pathvariable", "@requestbody",
   "@modelattribute", "@valid", "@responsebody", "@controller",
   "@restcontroller", "@service", "@repository"]

/-- `_calculate_confidence(line, lines, line_no, rule, base_score)`
(analyzer.py lines 882–1000), score in hundredths.  Every step only adds to
the score.  The source re-checks `line_no > len(lines)` a second time; both
checks are the same test here. -/
def calculate_confidence (line : String) (lines : List String) (line_no : Nat)
    (rule : TRule) (base_score : ℤ) : ℤ :=
  if line = "" ∨ lines = [] ∨ line_no < 1 ∨ lines.length < line_no then base_score
  else
    let line_lower := strLower line
    let vul_type := strUpper rule.vul_type
    let score := base_score
    -- 1. keyword density on the line itself
    let score := if 2 ≤ countPresent ["request", "getparameter", "getinputstream",
        "response", "execute"] line_lower then score + 10 else score
    -- 2. syntactic complexity
    let score := if 3 < countChar line '(' ∨ 5 < countChar line '.' then
      score + 5 else score
    -- 3. string concatenation with SQL
    let score := if (containsChar line '+' ∨ containsSub line_lower "concat" ∨
        containsSub line_lower "append") ∧ containsSub vul_type "SQL" then
      score + 10 else score
    -- 4. direct dangerous operations
    let score := dangerous_patterns.foldl (dangerousStep vul_type line_lower) score
    -- 5./6. wider ±7-line context block
    let score := if 7 ≤ line_no ∧ line_no < lines.length - 7 then
      let context_start := line_no - 7
      let context_end := min lines.length (line_no + 7 + 1)
      let block_text := strLower (joinSpace (pySlice lines context_start context_end))
      let input_count := countPresent input_keywords block_text
      let output_count := countPresent output_keywords block_text
      let score := ioBonus input_count output_count score
      springBonus (countPresent spring_patterns block_text) score
    else score
    -- 7. returning user input
    let score := if containsSub line_lower "return" ∧
        (["request", "parameter", "input", "getparameter"].any
          (containsSub line_lower ·)) then score + 10 else score
    -- 8. collections holding user input
    let score := if (["list", "array", "map", "set", "collection"].any
          (containsSub line_lower ·)) ∧
        (containsSub line_lower "getparameter" ∨ containsSub line_lower "request") then
      score + 5 else score
    -- 9. casts of user input
    let score := if (["tostring", "valueof", "parse", "convert"].any
          (containsSub line_lower ·)) ∧
        (containsSub line_lower "request" ∨ containsSub line_lower "parameter") then
      score + 5 else score
    clamp100 score

/-- `rule.get('vul_type') or rule.get('name')`. -/
def vulTypeOf (rule : TRule) : String :=
  if rule.vul_type = "" then rule.name else rule.vul_type

/-- `rule.get('severity') or 'Medium'`. -/
def baseSeverity (rule : TRule) : String :=
  if rule.severity = "" then "Medium" else rule.severity

/-- `rule.get('desc') or '模板文本风险'`. -/
def descOf (rule : TRule) : String :=
  if rule.desc = "" then "模板文本风险" else rule.desc

/-- The severity demotion applied when a grouped finding is emitted
(analyzer.py lines 1367–1372): `if group_conf < 0.5 and severity == 'High':
severity = 'Medium' elif group_conf < 0.3: severity = 'Low'`. -/
def demoteSeverity (conf : ℤ) (severity : String) : String :=
  if conf < 50 ∧ severity = "High" then "Medium"
  else if conf < 30 then "Low"
  else severity

def scanModeStr (lite : Bool) : String := if lite then "lite" else "full"

/-- The decision the pattern-loop body (analyzer.py lines 1270–1321) takes
for one compiled pattern on one line: `skip` is a miss or a `continue` of one
of the secondary filters, `stopLine` the `break` on an already-`seen` dedup
key, `hit` the accepted match with its computed confidence (also followed by
`break`).  `ENABLE_CONTEXT_ANALYSIS` and `ENABLE_SMART_SCORING` are both the
constant `True` in the source. -/
inductive PatDecision where
  | skip : PatDecision
  | stopLine : PatDecision
  | hit (conf : ℤ) : PatDecision

def patDecide (rule : TRule) (applyMust : Bool) (rel ext : String)
    (lines : List String) (i : Nat) (line : String) (seen : List SeenKey)
    (pat : String → Bool) : PatDecision :=
  if pat line then
    let line_lower := strLower line
    if applyMust ∧ rule.exclude_substrings ≠ [] ∧
        rule.exclude_substrings.any
          (fun x => containsSub line_lower (strLower x)) then .skip
    else if applyMust ∧ rule.must_substrings ≠ [] ∧
        ¬ rule.must_substrings.all
          (fun x => containsSub line_lower (strLower x)) then .skip
    else if is_false_positive line lines i CONTEXT_WINDOW rule ∧
        calculate_confidence line lines i rule
          (if ext = "jsp" ∨ ext = "jspx" then 60 else 50) < 30 then .skip
    else
      let context_score := analyze_context lines i CONTEXT_WINDOW rule
      let threshold : ℤ := if ext = "jsp" ∨ ext = "jspx" then 25 else 30
      if context_score < threshold then .skip
      else if (rule.name, rel, i) ∈ seen then .stopLine
      else
        let confidence := calculate_confidence line lines i rule context_score
        let confidence := if (ext = "jsp" ∨ ext = "jspx") ∧ 50 < confidence
          then min 100 (confidence + 5) else confidence
        .hit confidence
  else .skip

/-- The `for pat in pats:` loop for one line (analyzer.py lines 1264–1321),
threading `regex_evals` (incremented before every pattern evaluation) and
`seen`; returns the recorded confidence when the line was accepted as a hit. -/
def patLoop (cfg : ScanCfg) (rule : TRule) (rel ext : String)
    (lines : List String) (i : Nat) (line : String) :
    List (String → Bool) → Nat → List SeenKey → Nat × List SeenKey × Option ℤ
  | [], evals, seen => (evals, seen, none)
  | pat :: rest, evals, seen =>
      if cfg.stop then (evals, seen, none)
      else if maxRegexEvals cfg ≤ evals then (evals, seen, none)
      else
        match patDecide rule cfg.applyMust rel ext lines i line seen pat with
        | .skip => patLoop cfg rule rel ext lines i line rest (evals + 1) seen
        | .stopLine => (evals + 1, seen, none)
        | .hit conf => (evals + 1, (rule.name, rel, i) :: seen, some conf)

/-- The `for i, line in enumerate(lines, start=1):` loop of one regular rule
on one file (analyzer.py lines 1253–1321), accumulating the hit lines with
their confidences.  `counts` is read-only during the loop. -/
def lineLoop (cfg : ScanCfg) (rule : TRule) (rel ext : String)
    (lines : List String) (counts : CountMap) :
    List (Nat × String) → Nat → List SeenKey → List (Nat × ℤ) →
      Nat × List SeenKey × List (Nat × ℤ)
  | [], evals, seen, hits => (evals, seen, hits)
  | (i, line) :: rest, evals, seen, hits =>
      if cfg.stop then (evals, seen, hits)
      else if 10000 < strLen line then
        lineLoop cfg rule rel ext lines counts rest evals seen hits
      else if ¬ rule.force_regex ∧ rule.hints ≠ [] ∧
          ¬ rule.hints.any (fun h => containsSub (strLower line) h) then
        lineLoop cfg rule rel ext lines counts rest evals seen hits
      else if perFileRuleCap cfg ≤ countGet counts (rule.name, rel) then
        (evals, seen, hits)
      else
        match patLoop cfg rule rel ext lines i line rule.patterns evals seen with
        | (evals', seen', none) =>
            lineLoop cfg rule rel ext lines counts rest evals' seen' hits
        | (evals', seen', some conf) =>
            lineLoop cfg rule rel ext lines counts rest evals' seen'
              (hits ++ [(i, conf)])

/-- Python `enumerate(lines, start=1)`. -/
def enum1 (lines : List String) : List (Nat × String) :=
  lines.enum.map (fun p => (p.1 + 1, p.2))

/-- Folding adjacent hit lines into `(start, end, max_confidence)` groups
(analyzer.py lines 1322–1347).  The source sorts the hit-line numbers and
takes, per line, the maximal recorded confidence; here the hit list is already
strictly ascending with one confidence per line (which is exactly what the
line loop produces), so the fold below is that computation. -/
def groupHitsGo (start prev : Nat) (conf : ℤ) :
    List (Nat × ℤ) → List (Nat × Nat × ℤ)
  | [] => [(start, prev, conf)]
  | (l, c) :: rest =>
      if l = prev + 1 then groupHitsGo start l (max conf c) rest
      else (start, prev, conf) :: groupHitsGo l l c rest

def groupHits : List (Nat × ℤ) → List (Nat × Nat × ℤ)
  | [] => []
  | (l, c) :: rest => groupHitsGo l l c rest

/-- Emission of the grouped findings of one rule on one file (analyzer.py
lines 1349–1401).  `hitNums` is the sorted list of hit lines; `group_lines`
is its restriction to the group's range.  `MAX_FINDINGS` is 999999 in both
modes and never reached in this model. -/
def emitGroups (cfg : ScanCfg) (rule : TRule) (rel : String) (hitNums : List Nat) :
    List (Nat × Nat × ℤ) → ScanSt → ScanSt
  | [], st => st
  | (gs, ge, gc) :: rest, st =>
      if perFileRuleCap cfg ≤ countGet st.counts (rule.name, rel) then st
      else
        let vul := vulTypeOf rule
        if (rel, vul) ∈ st.fileVul then st
        else
          let fd : Finding := {
            vul_type := vul
            sink_desc := descOf rule
            severity := demoteSeverity gc (baseSeverity rule)
            sink := rule.name
            chain_count := 1
            confidence := gc
            file_path := rel
            group_lines := hitNums.filter (fun ln => gs ≤ ln ∧ ln ≤ ge)
            line := gs
            scan_mode := scanModeStr cfg.lite }
          emitGroups cfg rule rel hitNums rest
            { seen := st.seen
              counts := countBump st.counts (rule.name, rel)
              fileVul := (rel, vul) :: st.fileVul
              findings := st.findings ++ [fd] }

/-- One index of the FORM_NO_CSRF block loop (analyzer.py lines 1186–1238):
on a `<form … method="post"` line, scan the 50-line window for a CSRF token
and emit a confidence-0.8 finding if none is found, subject to the same three
dedup guards.  This loop never polls the stop predicate. -/
def formStep (cfg : ScanCfg) (rule : TRule) (rel : String) (lines : List String)
    (st : ScanSt) (i : Nat) : ScanSt :=
  let line := lines.getD i ""
  if containsSub line "<form" ∧ containsSub line "method=\"post\"" then
    let window := joinAll ((lines.drop i).take 50)
    if ¬ containsSub window "name=\"csrf\"" ∧ ¬ containsSub window "_csrf" then
      let key : SeenKey := (rule.name, rel, i + 1)
      let vul := vulTypeOf rule
      if key ∉ st.seen ∧ countGet st.counts (rule.name, rel) < perFileRuleCap cfg ∧
          (rel, vul) ∉ st.fileVul then
        { seen := key :: st.seen
          counts := countBump st.counts (rule.name, rel)
          fileVul := (rel, vul) :: st.fileVul
          findings := st.findings ++ [{
            vul_type := vul
            sink_desc := descOf rule
            severity := baseSeverity rule
            sink := rule.name
            chain_count := 1
            confidence := 80
            file_path := rel
            group_lines := [i + 1]
            line := i + 1
            scan_mode := scanModeStr cfg.lite }] }
      else st
    else st
  else st

def formLoop (cfg : ScanCfg) (rule : TRule) (rel : String) (lines : List String)
    (st : ScanSt) : ScanSt :=
  (List.range lines.length).foldl (formStep cfg rule rel lines) st

/-- One rule applied to one file, threading `regex_evals` (which the source
resets per file and shares across the file's rules). -/
def processRule (cfg : ScanCfg) (rel ext : String) (lines : List String)
    (acc : Nat × ScanSt) (rule : TRule) : Nat × ScanSt :=
  if strUpper rule.name = "FORM_NO_CSRF" then
    (acc.1, formLoop cfg rule rel lines acc.2)
  else
    let r := lineLoop cfg rule rel ext lines acc.2.counts (enum1 lines) acc.1
      acc.2.seen []
    let st' : ScanSt := { acc.2 with seen := r.2.1 }
    (r.1, emitGroups cfg rule rel (r.2.2.map (·.1)) (groupHits r.2.2) st')

/-- Python `file.split('.')[-1].lower() if '.' in file else ''`. -/
def extOfFile (filename : String) : String :=
  if containsChar filename '.' then strLower (lastSegment '.' filename) else ""

def javaRelatedExts : List String := ["java", "jsp", "jspx", "class"]

/-- Python `e.lower().lstrip('.')`. -/
def normExt (e : String) : String :=
  String.mk ((strLower e).data.dropWhile (· = '.'))

/-- The extensions a rule is registered under in `ext_map`, after the
`__include_exts__` restriction. -/
def ruleExts (includeExts : List String) (r : TRule) : List String :=
  let es := r.file_exts.map normExt
  if includeExts ≠ [] then es.filter (· ∈ includeExts) else es

/-- One file of the walk (analyzer.py lines 1119–1403): Java-related files are
checked against every template rule, others only against the rules registered
for their extension; `regex_evals` restarts at 0. -/
def processFile (cfg : ScanCfg) (includeExts : List String) (rules : List TRule)
    (st : ScanSt) (f : TFile) : ScanSt :=
  let ext := extOfFile f.name
  let rules_to_check := if ext ∈ javaRelatedExts then rules
    else rules.filter (fun r => ext ∈ ruleExts includeExts r)
  (rules_to_check.foldl (processRule cfg f.rel ext f.lines) (0, st)).2

/-- `_scan_template_files` over the walked file list (skip-dirs, size caps and
unreadable files are filtered before this model).  Returns the `findings`
list. -/
def scan_template_files (cfg : ScanCfg) (includeExts : List String)
    (rules : List TRule) (files : List TFile) : List Finding :=
  match rules with
  | [] => []
  | _ => (files.foldl (processFile cfg includeExts rules) ⟨[], [], [], []⟩).findings

/-! ## Concrete scanner fixtures used by the claim witnesses/counterexamples -/

/-- An RCE template rule whose single pattern matches any line containing
`getRuntime` (case-insensitively) — the regex `getRuntime` compiled with
`re.I`; `force_regex` set, so the hint gate is skipped. -/
def rceRule : TRule := {
  name := "RCE_RULE", vul_type := "RCE", desc := "", severity := "High",
  file_path := "",
  patterns := [fun l => containsSub (strLower l) "getruntime"],
  hints := [], force_regex := true,
  must_substrings := [], exclude_substrings := [], file_exts := ["java"] }

/-- A `.java` file whose only line is a commented-out Runtime.exec call. -/
def rceFile : TFile := {
  name := "T.java", rel := "T.java",
  lines := ["// runtime.getRuntime().exec(userCmd)\n"] }

/-- An EL-injection rule (pattern: any line containing `<%=`). -/
def elRule : TRule := {
  name := "ELX", vul_type := "EL_INJECTION", desc := "", severity := "High",
  file_path := "",
  patterns := [fun l => containsSub l "<%="],
  hints := [], force_regex := true,
  must_substrings := [], exclude_substrings := [], file_exts := ["jsp"] }

/-- A `.jsp` file whose context scores 0.25: the `<%=` hit line plus a line
holding two sanitizer keywords. -/
def elFile : TFile := {
  name := "a.jsp", rel := "a.jsp",
  lines := ["<%= y\n", "sanitize quote\n"] }

/-- The FORM_NO_CSRF block rule. -/
def formRule : TRule := {
  name := "FORM_NO_CSRF", vul_type := "CSRF", desc := "", severity := "Medium",
  file_path := "", patterns := [], hints := [], force_regex := false,
  must_substrings := [], exclude_substrings := [], file_exts := ["jsp"] }

/-- Two `.jsp` files with an unprotected POST form each. -/
def formFile1 : TFile := {
  name := "f1.jsp", rel := "f1.jsp",
  lines := ["<form action=\"/x\" method=\"post\">\n", "</form>\n"] }

def formFile2 : TFile := {
  name := "f2.jsp", rel := "f2.jsp",
  lines := ["<form action=\"/y\" method=\"post\">\n", "</form>\n"] }

/-- A rule with every field empty. -/
def emptyRule : TRule := ⟨"", "", "", "", "", [], [], false, [], [], []⟩

/-- The per-`(rule_name, relpath)` finding count. -/
def countFd (fds : List Finding) (n r : String) : Nat :=
  (fds.filter (fun fd => fd.sink = n ∧ fd.file_path = r)).length

/-- The state invariant of one `_scan_template_files` run: every finding's
`(relpath, vul_type)` is registered in the file-level dedup set, every
finding's `(rule_name, relpath, line)` key is in `seen`, the findings are
pairwise distinct on both keys, and the per-`(rule_name, relpath)` counter
both equals the number of emitted findings with that key and stays within the
per-file-per-rule cap. -/
def ScanInv (cfg : ScanCfg) (st : ScanSt) : Prop :=
  (∀ fd ∈ st.findings, (fd.file_path, fd.vul_type) ∈ st.fileVul) ∧
  (∀ fd ∈ st.findings, (fd.sink, fd.file_path, fd.line) ∈ st.seen) ∧
  List.Pairwise (fun a b : Finding =>
    ¬(a.file_path = b.file_path ∧ a.vul_type = b.vul_type)) st.findings ∧
  List.Pairwise (fun a b : Finding =>
    ¬(a.sink = b.sink ∧ a.file_path = b.file_path ∧ a.line = b.line)) st.findings ∧
  (∀ n r, countFd st.findings n r = countGet st.counts (n, r)) ∧
  (∀ n r, countGet st.counts (n, r) ≤ perFileRuleCap cfg)

/-! ## Theorems -/

theorem lookup_addEdge (rev : CallGraph) (e c k : Sig) :
    lookupCG (addEdge rev e c) k =
      if k = e then lookupCG rev k ++ [c] else lookupCG rev k := by
  induction rev with
  | nil =>
      by_cases h : k = e <;> simp [addEdge, lookupCG, List.find?, h]
  | cons p rest ih =>
      obtain ⟨pk, pv⟩ := p
      by_cases hpe : pk = e
      · subst hpe
        by_cases hk : k = pk
        · subst hk; simp [addEdge, lookupCG, List.find?]
        · simp [addEdge, lookupCG, List.find?, hk, if_neg hk]
      · by_cases hk : k = pk
        · subst hk
          have : ¬ k = e := fun h => hpe (h ▸ rfl)
          simp [addEdge, lookupCG, List.find?, hpe, this]
        · simp only [addEdge, if_neg hpe]
          have h1 : lookupCG ((pk, pv) :: addEdge rest e c) k
              = lookupCG (addEdge rest e c) k := by
            simp [lookupCG, List.find?, hk]
          have h2 : lookupCG ((pk, pv) :: rest) k = lookupCG rest k := by
            simp [lookupCG, List.find?, hk]
          rw [h1, h2, ih]

theorem mem_lookup_innerFold (caller : Sig) (es : List Sig) (rev : CallGraph)
    (x k : Sig) :
    x ∈ lookupCG (es.foldl (fun r callee => addEdge r callee caller) rev) k ↔
      x ∈ lookupCG rev k ∨ (x = caller ∧ k ∈ es) := by
  induction es generalizing rev with
  | nil => simp
  | cons e es ih =>
      simp only [List.foldl_cons, ih, lookup_addEdge, List.mem_cons]
      by_cases hk : k = e
      · subst hk
        simp
        exact fun h _ => Or.inr h
      · simp only [if_neg hk]
        constructor
        · rintro (h | ⟨rfl, hes⟩)
          · exact Or.inl h
          · exact Or.inr ⟨rfl, Or.inr hes⟩
        · rintro (h | ⟨rfl, h | hes⟩)
          · exact Or.inl h
          · exact absurd h hk
          · exact Or.inr ⟨rfl, hes⟩

theorem mem_lookup_invertAll (cg : CallGraph) (rev : CallGraph) (x k : Sig) :
    x ∈ lookupCG (cg.foldl (fun r p => p.2.foldl (fun r' callee => addEdge r' callee p.1) r) rev) k ↔
      x ∈ lookupCG rev k ∨ HasEdge cg x k := by
  induction cg generalizing rev with
  | nil => simp [HasEdge]
  | cons p cg ih =>
      obtain ⟨pc, pes⟩ := p
      simp only [List.foldl_cons, ih, mem_lookup_innerFold, HasEdge, List.mem_cons]
      constructor
      · rintro (⟨h | ⟨rfl, hk⟩⟩ | ⟨es, hmem, hk⟩)
        · exact Or.inl h
        · exact Or.inr ⟨pes, Or.inl rfl, hk⟩
        · exact Or.inr ⟨es, Or.inr hmem, hk⟩
      · rintro (h | ⟨es, h | hmem, hk⟩)
        · exact Or.inl (Or.inl h)
        · cases h; exact Or.inl (Or.inr ⟨rfl, hk⟩)
        · exact Or.inr ⟨es, hmem, hk⟩

theorem lookup_map_dedup (g : CallGraph) (k : Sig) :
    lookupCG (g.map (fun p => (p.1, p.2.dedup))) k = (lookupCG g k).dedup := by
  induction g with
  | nil => simp [lookupCG]
  | cons p rest ih =>
      by_cases hk : k = p.1
      · simp [lookupCG, List.find?, hk]
      · simpa [lookupCG, List.find?, hk] using ih

theorem lookup_of_mem_nodupKeys (cg : CallGraph) (c : Sig) (es : List Sig)
    (hnd : (cg.map Prod.fst).Nodup) (hmem : (c, es) ∈ cg) :
    lookupCG cg c = es := by
  induction cg with
  | nil => cases hmem
  | cons p rest ih =>
      rcases List.mem_cons.mp hmem with h | h
      · cases h; simp [lookupCG, List.find?]
      · have hne : ¬ c = p.1 := by
          intro hc
          have : c ∈ rest.map Prod.fst := List.mem_map.mpr ⟨(c, es), h, rfl⟩
          rw [List.map_cons, List.nodup_cons] at hnd
          exact hnd.1 (hc ▸ this)
        have := ih (by rw [List.map_cons, List.nodup_cons] at hnd; exact hnd.2) h
        simpa [lookupCG, List.find?, hne] using this

theorem mem_lookup_iff_hasEdge (cg : CallGraph) (hnd : (cg.map Prod.fst).Nodup)
    (c e : Sig) : e ∈ lookupCG cg c ↔ HasEdge cg c e := by
  constructor
  · intro h
    unfold lookupCG at h
    rcases hfind : cg.find? (fun p => c = p.1) with _ | p
    · rw [hfind] at h; cases h
    · rw [hfind] at h
      have hp := List.find?_some hfind
      have hmem := List.mem_of_find?_eq_some hfind
      have : c = p.1 := by simpa using hp
      exact ⟨p.2, by rw [this]; exact hmem, h⟩
  · rintro ⟨es, hmem, he⟩
    rw [lookup_of_mem_nodupKeys cg c es hnd hmem]; exact he

/-- C3: after `_build_reverse_call_graph`, the reverse graph is the transpose
of the forward graph, and every caller list in it is duplicate-free.  The
forward graph is a Python dict, so its keys are distinct (`hnd`). -/
theorem reverse_call_graph_is_transpose (cg : CallGraph)
    (hnd : (cg.map Prod.fst).Nodup) :
    (∀ c e : Sig,
      e ∈ lookupCG cg c ↔ c ∈ lookupCG (build_reverse_call_graph cg) e) ∧
    (∀ p ∈ build_reverse_call_graph cg, p.2.Nodup) := by
  constructor
  · intro c e
    rw [mem_lookup_iff_hasEdge cg hnd c e]
    unfold build_reverse_call_graph
    rw [lookup_map_dedup, List.mem_dedup, mem_lookup_invertAll]
    simp [lookupCG]
  · intro p hp
    unfold build_reverse_call_graph at hp
    rcases List.mem_map.mp hp with ⟨q, _, rfl⟩
    exact q.2.nodup_dedup

/-- Witness for C3 on a concrete two-edge graph. -/
theorem reverse_call_graph_is_transpose_witness :
    (([(⟨"A", "h"⟩, [⟨"Svc", "q"⟩, ⟨"B", "x"⟩])] : CallGraph).map Prod.fst).Nodup ∧
    (⟨"A", "h"⟩ : Sig) ∈ lookupCG
      (build_reverse_call_graph [(⟨"A", "h"⟩, [⟨"Svc", "q"⟩, ⟨"B", "x"⟩])]) ⟨"Svc", "q"⟩ :=
  ⟨by decide,
   (reverse_call_graph_is_transpose
      [(⟨"A", "h"⟩, [⟨"Svc", "q"⟩, ⟨"B", "x"⟩])] (by decide)).1 ⟨"A", "h"⟩ ⟨"Svc", "q"⟩
     |>.mp (by decide)⟩

theorem getLast?_cons_of_ne_nil {α : Type} (x : α) (l : List α) (h : l ≠ []) :
    (x :: l).getLast? = l.getLast? := by
  cases l with
  | nil => exact absurd rfl h
  | cons a t => simp [List.getLast?_cons_cons]

theorem ne_nil_of_getLast?_eq_some {α : Type} {l : List α} {a : α}
    (h : l.getLast? = some a) : l ≠ [] := by
  intro he; subst he; simp at h

theorem processCallers_inv (entry hasParams : Sig → Bool) (sink : Sig) (eff : Nat)
    (path : List Sig) (depth : Nat) (nodes : List Sig)
    (hpath : GoodEntry sink eff (path, depth, nodes)) (hdepth : depth < eff) :
    ∀ (callers : List Sig) (visited : List (Sig × Nat)) (queue : List QEntry)
      (paths : List (List Sig)),
      (∀ q ∈ queue, GoodEntry sink eff q) →
      (∀ c ∈ paths, GoodPath sink eff entry c) →
      (∀ q ∈ (processCallers entry hasParams path depth nodes callers visited queue paths).2.1,
        GoodEntry sink eff q) ∧
      (∀ c ∈ (processCallers entry hasParams path depth nodes callers visited queue paths).2.2,
        GoodPath sink eff entry c) := by
  obtain ⟨hnd, hlast, hlen, _, hiff⟩ := hpath
  have hne : path ≠ [] := ne_nil_of_getLast?_eq_some hlast
  intro callers
  induction callers with
  | nil => intro visited queue paths hq hp; exact ⟨hq, hp⟩
  | cons caller rest ih =>
      intro visited queue paths hq hp
      by_cases h1 : caller ∈ nodes
      · simpa [processCallers, h1] using ih visited queue paths hq hp
      · by_cases h2 : (caller, depth + 1) ∈ visited
        · simpa [processCallers, h1, h2] using ih visited queue paths hq hp
        · have hnotpath : caller ∉ path := fun hmem => h1 ((hiff caller).mpr hmem)
          have hgood : ∀ b : Bool, GoodEntry sink eff (caller :: path, depth + 1, nodes ++ [caller]) := by
            intro _
            refine ⟨List.nodup_cons.mpr ⟨hnotpath, hnd⟩, ?_, ?_, hdepth, ?_⟩
            · rw [getLast?_cons_of_ne_nil _ _ hne]; exact hlast
            · simp [hlen]
            · intro x
              simp only [List.mem_append, List.mem_singleton, List.mem_cons,
                List.not_mem_nil, or_false]
              constructor
              · rintro (hx | rfl)
                · exact Or.inr ((hiff x).mp hx)
                · exact Or.inl rfl
              · rintro (rfl | hx)
                · exact Or.inr rfl
                · exact Or.inl ((hiff x).mpr hx)
          by_cases h3 : hasParams caller = false
          · simpa [processCallers, h1, h2, h3] using
              ih (visited ++ [(caller, depth + 1)]) queue paths hq hp
          · by_cases h4 : entry caller = true
            · refine ?_
              have hp' : ∀ c ∈ paths ++ [caller :: path], GoodPath sink eff entry c := by
                intro c hc
                rcases List.mem_append.mp hc with hc | hc
                · exact hp c hc
                · rcases List.mem_singleton.mp hc with rfl
                  refine ⟨List.nodup_cons.mpr ⟨hnotpath, hnd⟩, ⟨caller, path, rfl, h4⟩, ?_, ?_⟩
                  · rw [getLast?_cons_of_ne_nil _ _ hne]; exact hlast
                  · simp only [List.length_cons, hlen]; omega
              simpa [processCallers, h1, h2, h3, h4] using
                ih (visited ++ [(caller, depth + 1)]) queue (paths ++ [caller :: path]) hq hp'
            · have hq' : ∀ q ∈ queue ++ [(caller :: path, depth + 1, nodes ++ [caller])],
                  GoodEntry sink eff q := by
                intro q hmem
                rcases List.mem_append.mp hmem with hmem | hmem
                · exact hq q hmem
                · rcases List.mem_singleton.mp hmem with rfl
                  exact hgood true
              simpa [processCallers, h1, h2, h3, h4] using
                ih (visited ++ [(caller, depth + 1)])
                  (queue ++ [(caller :: path, depth + 1, nodes ++ [caller])]) paths hq' hp

theorem traceLoop_inv (rcg : CallGraph) (entry hasParams : Sig → Bool) (stop : Bool)
    (sink : Sig) (eff : Nat) :
    ∀ (fuel : Nat) (queue : List QEntry) (visited : List (Sig × Nat))
      (paths : List (List Sig)),
      (∀ q ∈ queue, GoodEntry sink eff q) →
      (∀ c ∈ paths, GoodPath sink eff entry c) →
      ∀ c ∈ traceLoop rcg entry hasParams stop eff fuel queue visited paths,
        GoodPath sink eff entry c := by
  intro fuel
  induction fuel with
  | zero => intro queue visited paths _ hp c hc; exact hp c hc
  | succ fuel ih =>
      intro queue visited paths hq hp c hc
      match queue with
      | [] => exact hp c hc
      | (path, depth, nodes) :: queue =>
          rw [traceLoop] at hc
          by_cases hstop : stop
          · rw [if_pos hstop] at hc; exact hp c hc
          · rw [if_neg hstop] at hc
            by_cases hd : eff ≤ depth
            · rw [if_pos hd] at hc
              exact ih queue visited paths (fun q hq' => hq q (List.mem_cons_of_mem _ hq')) hp c hc
            · rw [if_neg hd] at hc
              have hhead := hq _ (List.mem_cons_self _ _)
              have hrec := processCallers_inv entry hasParams sink eff path depth nodes hhead
                (Nat.lt_of_not_le hd) (lookupCG rcg (path.headD ⟨"", ""⟩)) visited queue paths
                (fun q hq' => hq q (List.mem_cons_of_mem _ hq')) hp
              exact ih _ _ _ hrec.1 hrec.2 c hc

theorem trace_back_good (rcg : CallGraph) (entry hasParams : Sig → Bool)
    (stop : Bool) (sink : Sig) (d fuel : Nat) :
    ∀ c ∈ trace_back rcg entry hasParams stop sink d fuel,
      GoodPath sink (effectiveMaxDepth d) entry c := by
  intro c hc
  refine traceLoop_inv rcg entry hasParams stop sink (effectiveMaxDepth d) fuel
    [([sink], 0, [sink])] [] [] ?_ (by intro c hc; cases hc) c hc
  intro q hmem
  rcases List.mem_singleton.mp hmem with rfl
  exact ⟨List.nodup_singleton sink, by simp, by simp, Nat.zero_le _, by simp⟩

theorem effectiveMaxDepth_le_max (d : Nat) : effectiveMaxDepth d ≤ max d 15 := by
  unfold effectiveMaxDepth
  split
  · exact le_rfl
  · exact le_max_left _ _

/-- C1: every chain emitted by `_trace_back(sink, depth)` has no repeated
signature, starts at a signature satisfying `is_entry_point`, ends at the sink
it was started from, and has length at most `max(depth, 15) + 1`. -/
theorem trace_back_chain_invariants (rcg : CallGraph) (entry hasParams : Sig → Bool)
    (stop : Bool) (sink : Sig) (d fuel : Nat) (c : List Sig)
    (hc : c ∈ trace_back rcg entry hasParams stop sink d fuel) :
    c.Nodup ∧ (∃ h t, c = h :: t ∧ entry h = true) ∧
      c.getLast? = some sink ∧ c.length ≤ max d 15 + 1 := by
  obtain ⟨h1, h2, h3, h4⟩ := trace_back_good rcg entry hasParams stop sink d fuel c hc
  exact ⟨h1, h2, h3, h4.trans (Nat.add_le_add_right (effectiveMaxDepth_le_max d) 1)⟩

/-- Witness for C1 on a one-edge reverse graph: the sink `Svc:q` is called by
the entry point `A:h`, and the emitted chain `[A:h, Svc:q]` satisfies all four
invariants. -/
theorem trace_back_chain_invariants_witness :
    [Sig.mk "A" "h", Sig.mk "Svc" "q"] ∈
      trace_back [(⟨"Svc", "q"⟩, [⟨"A", "h"⟩])] (fun s => decide (s = ⟨"A", "h"⟩))
        (fun _ => true) false ⟨"Svc", "q"⟩ 15 5 ∧
    ([Sig.mk "A" "h", Sig.mk "Svc" "q"].Nodup ∧
      (∃ h t, [Sig.mk "A" "h", Sig.mk "Svc" "q"] = h :: t ∧
        (fun s => decide (s = Sig.mk "A" "h")) h = true) ∧
      [Sig.mk "A" "h", Sig.mk "Svc" "q"].getLast? = some ⟨"Svc", "q"⟩ ∧
      [Sig.mk "A" "h", Sig.mk "Svc" "q"].length ≤ max 15 15 + 1) :=
  ⟨by decide,
   trace_back_chain_invariants [(⟨"Svc", "q"⟩, [⟨"A", "h"⟩])]
     (fun s => decide (s = ⟨"A", "h"⟩)) (fun _ => true) false ⟨"Svc", "q"⟩ 15 5
     [Sig.mk "A" "h", Sig.mk "Svc" "q"] (by decide)⟩

/-- C2 counterexample: with configured depth `D = 10`, `find_vulnerabilities`
passes `max(10, 15) = 15` to `_trace_back`, so on a 12-node caller chain
(`C:m0 ← C:m1 ← … ← C:m11`, with `C:m11` the only entry point) the search emits
a chain of length 12 > D + 1 = 11.  The claim "when the rules bundle configures
a depth D in [10,14], the search is capped at D and no emitted chain is longer
than D+1" is therefore false. -/
theorem find_vulnerabilities_depth_cap_counterexample :
    ∃ c ∈ trace_back
      [(⟨"C", "m0"⟩, [⟨"C", "m1"⟩]), (⟨"C", "m1"⟩, [⟨"C", "m2"⟩]),
       (⟨"C", "m2"⟩, [⟨"C", "m3"⟩]), (⟨"C", "m3"⟩, [⟨"C", "m4"⟩]),
       (⟨"C", "m4"⟩, [⟨"C", "m5"⟩]), (⟨"C", "m5"⟩, [⟨"C", "m6"⟩]),
       (⟨"C", "m6"⟩, [⟨"C", "m7"⟩]), (⟨"C", "m7"⟩, [⟨"C", "m8"⟩]),
       (⟨"C", "m8"⟩, [⟨"C", "m9"⟩]), (⟨"C", "m9"⟩, [⟨"C", "m10"⟩]),
       (⟨"C", "m10"⟩, [⟨"C", "m11"⟩])]
      (fun s => decide (s = ⟨"C", "m11"⟩)) (fun _ => true) false
      ⟨"C", "m0"⟩ (find_vulnerabilities_depth 10) 20, 10 + 1 < c.length := by
  refine ⟨[⟨"C", "m11"⟩, ⟨"C", "m10"⟩, ⟨"C", "m9"⟩, ⟨"C", "m8"⟩, ⟨"C", "m7"⟩,
    ⟨"C", "m6"⟩, ⟨"C", "m5"⟩, ⟨"C", "m4"⟩, ⟨"C", "m3"⟩, ⟨"C", "m2"⟩,
    ⟨"C", "m1"⟩, ⟨"C", "m0"⟩], ?_, ?_⟩ <;> decide

/-- C2 amended: `find_vulnerabilities` clamps the configured depth `D` to
`max(D, 15)` before calling `_trace_back`, whose own `max(·, 15) if · < 10`
adjustment is then the identity; so the end-to-end effective cap is
`max(D, 15)` for every configured `D` — in particular `15`, not `D`, for
`D ∈ [10,14]` — and every emitted chain has length at most `max(D, 15) + 1`. -/
theorem find_vulnerabilities_effective_depth (D : Nat) :
    effectiveMaxDepth (find_vulnerabilities_depth D) = max D 15 ∧
    ∀ (rcg : CallGraph) (entry hasParams : Sig → Bool) (stop : Bool) (sink : Sig)
      (fuel : Nat) (c : List Sig),
      c ∈ trace_back rcg entry hasParams stop sink (find_vulnerabilities_depth D) fuel →
      c.length ≤ max D 15 + 1 := by
  have heff : effectiveMaxDepth (find_vulnerabilities_depth D) = max D 15 := by
    unfold effectiveMaxDepth find_vulnerabilities_depth
    rw [if_neg]
    omega
  refine ⟨heff, ?_⟩
  intro rcg entry hasParams stop sink fuel c hc
  have := (trace_back_good rcg entry hasParams stop sink
    (find_vulnerabilities_depth D) fuel c hc).2.2.2
  rwa [heff] at this

/-- Witness for C2 (amended) at `D = 10` on the 12-node chain graph: the
emitted 12-node chain respects the bound `max(10, 15) + 1 = 16`. -/
theorem find_vulnerabilities_effective_depth_witness :
    [Sig.mk "C" "m11", Sig.mk "C" "m10", Sig.mk "C" "m9", Sig.mk "C" "m8",
     Sig.mk "C" "m7", Sig.mk "C" "m6", Sig.mk "C" "m5", Sig.mk "C" "m4",
     Sig.mk "C" "m3", Sig.mk "C" "m2", Sig.mk "C" "m1", Sig.mk "C" "m0"] ∈
      trace_back
        [(⟨"C", "m0"⟩, [⟨"C", "m1"⟩]), (⟨"C", "m1"⟩, [⟨"C", "m2"⟩]),
         (⟨"C", "m2"⟩, [⟨"C", "m3"⟩]), (⟨"C", "m3"⟩, [⟨"C", "m4"⟩]),
         (⟨"C", "m4"⟩, [⟨"C", "m5"⟩]), (⟨"C", "m5"⟩, [⟨"C", "m6"⟩]),
         (⟨"C", "m6"⟩, [⟨"C", "m7"⟩]), (⟨"C", "m7"⟩, [⟨"C", "m8"⟩]),
         (⟨"C", "m8"⟩, [⟨"C", "m9"⟩]), (⟨"C", "m9"⟩, [⟨"C", "m10"⟩]),
         (⟨"C", "m10"⟩, [⟨"C", "m11"⟩])]
        (fun s => decide (s = ⟨"C", "m11"⟩)) (fun _ => true) false
        ⟨"C", "m0"⟩ (find_vulnerabilities_depth 10) 20 ∧
    ([Sig.mk "C" "m11", Sig.mk "C" "m10", Sig.mk "C" "m9", Sig.mk "C" "m8",
      Sig.mk "C" "m7", Sig.mk "C" "m6", Sig.mk "C" "m5", Sig.mk "C" "m4",
      Sig.mk "C" "m3", Sig.mk "C" "m2", Sig.mk "C" "m1", Sig.mk "C" "m0"] : List Sig).length
      ≤ max 10 15 + 1 :=
  ⟨by decide,
   (find_vulnerabilities_effective_depth 10).2
     [(⟨"C", "m0"⟩, [⟨"C", "m1"⟩]), (⟨"C", "m1"⟩, [⟨"C", "m2"⟩]),
      (⟨"C", "m2"⟩, [⟨"C", "m3"⟩]), (⟨"C", "m3"⟩, [⟨"C", "m4"⟩]),
      (⟨"C", "m4"⟩, [⟨"C", "m5"⟩]), (⟨"C", "m5"⟩, [⟨"C", "m6"⟩]),
      (⟨"C", "m6"⟩, [⟨"C", "m7"⟩]), (⟨"C", "m7"⟩, [⟨"C", "m8"⟩]),
      (⟨"C", "m8"⟩, [⟨"C", "m9"⟩]), (⟨"C", "m9"⟩, [⟨"C", "m10"⟩]),
      (⟨"C", "m10"⟩, [⟨"C", "m11"⟩])]
     (fun s => decide (s = ⟨"C", "m11"⟩)) (fun _ => true) false
     ⟨"C", "m0"⟩ 20 _ (by decide)⟩

theorem ne_empty_of_containsChar {s : String} {c : Char}
    (h : containsChar s c = true) : s ≠ "" := by
  intro he; subst he; simp [containsChar] at h

/-- C8: for a one-entry rule list, `_rule_matches` succeeds (returns a
non-empty hit list) exactly when the two class parts are equal outright or
their last dotted segments are equal, and the method part of the signature is
among the rule entry's `|`-separated, trimmed method alternatives. -/
theorem rule_matches_short_name_iff (sig entry : String)
    (hsig : containsChar sig ':' = true)
    (hentry : containsChar entry ':' = true)
    (hcls : strStrip (splitOnce ':' sig).1 ≠ "")
    (hmtd : strStrip (splitOnce ':' sig).2 ≠ "") :
    rule_matches sig [⟨[entry], "", "", ""⟩] ≠ [] ↔
      ((strStrip (splitOnce ':' sig).1 = strStrip (splitOnce ':' entry).1 ∨
        lastSegment '.' (strStrip (splitOnce ':' sig).1) =
          lastSegment '.' (strStrip (splitOnce ':' entry).1)) ∧
       strStrip (splitOnce ':' sig).2 ∈
         (splitChar '|' (strStrip (splitOnce ':' entry).2)).map strStrip) := by
  have hne : ¬ (sig = "" ∨ ¬ containsChar sig ':' = true) := by
    push_neg
    exact ⟨ne_empty_of_containsChar hsig, hsig⟩
  have hentne : entry ≠ "" := ne_empty_of_containsChar hentry
  by_cases hcond :
      (strStrip (splitOnce ':' sig).1 = strStrip (splitOnce ':' entry).1 ∨
        lastSegment '.' (strStrip (splitOnce ':' sig).1) =
          lastSegment '.' (strStrip (splitOnce ':' entry).1)) ∧
       strStrip (splitOnce ':' sig).2 ∈
         (splitChar '|' (strStrip (splitOnce ':' entry).2)).map strStrip
  · simp [rule_matches, hne, hcls, hmtd, hentry, hcond, hitName, hentne]
    obtain ⟨h1, _⟩ := not_or.mp hne
    refine ⟨h1, hsig, ?_⟩
    rcases List.mem_map.mp hcond.2 with ⟨x, hx, he⟩
    exact ⟨x, hx, he⟩
  · simp [rule_matches, hne, hcls, hmtd, hentry, hcond, hitName, hentne]
    constructor
    · rintro ⟨-, -, hc, x, hx, he⟩
      exact absurd ⟨hc, List.mem_map.mpr ⟨x, hx, he⟩⟩ hcond
    · rintro ⟨hc, x, hx, he⟩
      exact absurd ⟨hc, List.mem_map.mpr ⟨x, hx, he⟩⟩ hcond

/-- Witness for C8: `matches("B:m", rule="A.B:m")` succeeds — the short class
names agree — and symmetrically the hypothesis side holds for the dotted
signature. -/
theorem rule_matches_short_name_iff_witness :
    rule_matches "B:m" [⟨["A.B:m"], "", "", ""⟩] ≠ [] :=
  (rule_matches_short_name_iff "B:m" "A.B:m" (by decide) (by decide) (by decide)
    (by decide)).mpr (by decide)

theorem clampQ_mono {a b : ℚ} (h : a ≤ b) : max 0 (min 1 a) ≤ max 0 (min 1 b) :=
  max_le_max le_rfl (min_le_min le_rfl h)

theorem sanitizer_term_antitone (x : ℚ) {s1 s2 : List String}
    (h : s1.length ≤ s2.length) :
    (if s2 ≠ [] then (if 2 ≤ s2.length then x - 1/2 else x - 2/5) else x) ≤
    (if s1 ≠ [] then (if 2 ≤ s1.length then x - 1/2 else x - 2/5) else x) := by
  by_cases h2 : s2 = []
  · have h1 : s1 = [] := by
      have := h
      rw [h2] at this
      simpa using List.length_eq_zero.mp (Nat.le_zero.mp this)
    simp [h1, h2]
  · by_cases h1 : s1 = []
    · simp only [h1, h2, ne_eq, not_true_eq_false, if_false, not_false_eq_true, if_true]
      split_ifs <;> linarith
    · have hlen1 : 1 ≤ s1.length := List.length_pos.mpr h1
      simp only [h1, h2, ne_eq, not_false_eq_true, if_true]
      split_ifs with c2 c1 c1
      · exact le_rfl
      · linarith
      · omega
      · exact le_rfl

theorem source_term_monotone (x : ℚ) {s1 s2 : List String}
    (h : s1.length ≤ s2.length) :
    (if s1 ≠ [] then (if 2 ≤ s1.length then x + 2/5 else x + 3/10) else x) ≤
    (if s2 ≠ [] then (if 2 ≤ s2.length then x + 2/5 else x + 3/10) else x) := by
  by_cases h2 : s2 = []
  · have h1 : s1 = [] := by
      have := h
      rw [h2] at this
      simpa using List.length_eq_zero.mp (Nat.le_zero.mp this)
    simp [h1, h2]
  · by_cases h1 : s1 = []
    · simp only [h1, h2, ne_eq, not_true_eq_false, if_false, not_false_eq_true, if_true]
      split_ifs <;> linarith
    · have hlen1 : 1 ≤ s1.length := List.length_pos.mpr h1
      simp only [h1, h2, ne_eq, not_false_eq_true, if_true]
      split_ifs with c1 c2 c2
      · exact le_rfl
      · omega
      · linarith
      · exact le_rfl

theorem if_add_mono (c : Prop) [Decidable c] (d : ℚ) {x y : ℚ} (h : x ≤ y) :
    (if c then x + d else x) ≤ (if c then y + d else y) := by
  split_ifs <;> linarith

theorem if_sub_mono (c : Prop) [Decidable c] (d : ℚ) {x y : ℚ} (h : x ≤ y) :
    (if c then x - d else x) ≤ (if c then y - d else y) := by
  split_ifs <;> linarith

theorem if_add2_mono (c1 c2 : Prop) [Decidable c1] [Decidable c2] (d1 d2 : ℚ)
    {x y : ℚ} (h : x ≤ y) :
    (if c1 then (if c2 then x + d1 else x + d2) else x) ≤
    (if c1 then (if c2 then y + d1 else y + d2) else y) := by
  split_ifs <;> linarith

/-- C4: `_score_chain` is monotone in the evidence counts with all else equal —
more matched sanitizers never increase the score, more matched sources never
decrease it.  `f, f'` (resp. `g, g'`) are two sanitizer (resp. source)
extractors, i.e. two rule bundles, whose hit counts on the fixed chain are
ordered; the pattern extractor `h` and the chain (hence its length) are
fixed. -/
theorem score_chain_monotone (f f' g g' h : List Sig → List String)
    (chain : List Sig) (sink_name : String)
    (hsan : (f chain).length ≤ (f' chain).length)
    (hsrc : (g chain).length ≤ (g' chain).length) :
    score_chain f' g h chain sink_name ≤ score_chain f g h chain sink_name ∧
    score_chain f g h chain sink_name ≤ score_chain f g' h chain sink_name := by
  by_cases hc : chain = []
  · simp [score_chain, hc]
  · constructor
    · simp only [score_chain, if_neg hc]
      apply clampQ_mono
      apply if_add_mono
      apply if_sub_mono
      apply if_add_mono
      apply if_add2_mono
      exact sanitizer_term_antitone 1 hsan
    · simp only [score_chain, if_neg hc]
      apply clampQ_mono
      apply if_add_mono
      apply if_sub_mono
      apply if_add_mono
      exact source_term_monotone _ hsrc

/-- Witness for C4: on the one-node chain `[A:a]`, going from zero to one
sanitizer hit and from zero to one source hit. -/
theorem score_chain_monotone_witness :
    ((fun _ : List Sig => ([] : List String)) [⟨"A", "a"⟩]).length ≤
      ((fun _ : List Sig => ["s1"]) [⟨"A", "a"⟩]).length ∧
    score_chain (fun _ => ["s1"]) (fun _ => []) (fun _ => []) [⟨"A", "a"⟩] "SQLI" ≤
      score_chain (fun _ => []) (fun _ => []) (fun _ => []) [⟨"A", "a"⟩] "SQLI" :=
  ⟨by decide,
   (score_chain_monotone (fun _ => []) (fun _ => ["s1"]) (fun _ => [])
     (fun _ => ["src"]) (fun _ => []) [⟨"A", "a"⟩] "SQLI" (by decide) (by decide)).1⟩

theorem cacheInsert_append_of_lookup_none (c : Cache) (p : String) (t : ℚ)
    (h : cacheLookup c p = none) : cacheInsert c p t = c ++ [(p, t)] := by
  induction c with
  | nil => rfl
  | cons e rest ih =>
      obtain ⟨k, v⟩ := e
      by_cases hk : k = p
      · subst hk
        simp [cacheLookup, List.find?] at h
      · have hrest : cacheLookup rest p = none := by
          have hne : ¬ p = k := fun hh => hk hh.symm
          simpa [cacheLookup, List.find?, hne] using h
        simp [cacheInsert, hk, ih hrest]

theorem cacheLookup_append_none (c : Cache) (p q : String) (t : ℚ)
    (h1 : cacheLookup c q = none) (h2 : q ≠ p) :
    cacheLookup (c ++ [(p, t)]) q = none := by
  induction c with
  | nil => simp [cacheLookup, List.find?, h2]
  | cons e rest ih =>
      obtain ⟨k, v⟩ := e
      by_cases hk : q = k
      · simp [cacheLookup, List.find?, hk] at h1
      · have hrest : cacheLookup rest q = none := by
          simpa [cacheLookup, List.find?, hk] using h1
        simpa [cacheLookup, List.find?, hk] using ih hrest

theorem parse_cache_step_fresh (c : Cache) (p : String) (now : ℚ)
    (hfresh : ∀ e ∈ c, ¬ (300 : ℚ) < now - e.2) (hnew : cacheLookup c p = none) :
    parse_file_with_cache_step c p now true = c ++ [(p, now)] := by
  have hins := cacheInsert_append_of_lookup_none c p now hnew
  have hexp : (c ++ [(p, now)]).filter (fun e2 => (300 : ℚ) < now - e2.2) = [] := by
    rw [List.filter_eq_nil_iff]
    intro e he
    rcases List.mem_append.mp he with he | he
    · simpa using hfresh e he
    · rcases List.mem_singleton.mp he with rfl
      simp only [decide_eq_true_eq, sub_self]
      norm_num
  simp only [parse_file_with_cache_step, hnew]
  rw [if_pos trivial]
  unfold cacheAfterParse cacheEvictExpired
  rw [hins, hexp]
  split
  · simp
  · rfl

/-- Growth of the cache under a run of successfully parsed, pairwise distinct,
previously uncached files, all at the same instant (so nothing is expired). -/
theorem cacheInsertAll_fresh (t : ℚ) (paths : List String) :
    ∀ c : Cache, (∀ e ∈ c, e.2 = t) → (∀ p ∈ paths, cacheLookup c p = none) →
      paths.Nodup →
      (cacheInsertAll paths t c).length = c.length + paths.length := by
  induction paths with
  | nil => intro c _ _ _; simp [cacheInsertAll]
  | cons p ps ih =>
      intro c hts hnone hnd
      have hfresh : ∀ e ∈ c, ¬ (300 : ℚ) < t - e.2 := by
        intro e he
        rw [hts e he, sub_self]
        norm_num
      have hstep := parse_cache_step_fresh c p t hfresh (hnone p (List.mem_cons_self _ _))
      have hts' : ∀ e ∈ c ++ [(p, t)], e.2 = t := by
        intro e he
        rcases List.mem_append.mp he with he | he
        · exact hts e he
        · rcases List.mem_singleton.mp he with rfl; rfl
      have hnone' : ∀ q ∈ ps, cacheLookup (c ++ [(p, t)]) q = none := by
        intro q hq
        refine cacheLookup_append_none c p q t (hnone q (List.mem_cons_of_mem _ hq)) ?_
        intro hqp
        exact (List.nodup_cons.mp hnd).1 (hqp ▸ hq)
      have := ih (c ++ [(p, t)]) hts' hnone' (List.nodup_cons.mp hnd).2
      simp only [cacheInsertAll, List.foldl_cons] at this ⊢
      rw [hstep, this]
      simp only [List.length_append, List.length_cons, List.length_nil]
      omega

/-- C10 counterexample: 1002 successful parses of 1002 distinct files at the
same instant leave 1002 entries in the cache — the overflow branch evicts only
*expired* entries (older than the 300 s TTL), of which there are none, so the
claimed 1000-entry bound does not hold. -/
theorem parse_cache_bound_counterexample :
    1000 < (cacheInsertAll
      ((List.range 1002).map (fun n => String.mk (List.replicate n 'a'))) 0 []).length := by
  have hinj : Function.Injective (fun n : Nat => String.mk (List.replicate n 'a')) := by
    intro m n h
    have := congrArg (fun s : String => s.data.length) h
    simpa using this
  have hnodup : ((List.range 1002).map
      (fun n : Nat => String.mk (List.replicate n 'a'))).Nodup :=
    (List.nodup_range 1002).map hinj
  have hlen := cacheInsertAll_fresh 0
    ((List.range 1002).map (fun n : Nat => String.mk (List.replicate n 'a'))) []
    (by intro e he; cases he) (by intro p _; rfl) hnodup
  rw [hlen]
  simp only [List.length_nil, List.length_map, List.length_range]
  norm_num

/-- C10 amended: the parsed-AST cache is *not* bounded by 1000 entries.  A call
whose file is not cached and whose existing entries are all within the
300-second TTL always grows the cache by exactly one entry, whatever its
current size: the overflow branch (`len > 1000`) deletes only entries older
than the TTL, at most 100 of them.  (Fresh cache hits are still served only
within the TTL, per the `now - cache_time < 300` guard.) -/
theorem parse_cache_grows_when_fresh (c : Cache) (p : String) (now : ℚ)
    (hfresh : ∀ e ∈ c, ¬ (300 : ℚ) < now - e.2) (hnew : cacheLookup c p = none) :
    (parse_file_with_cache_step c p now true).length = c.length + 1 := by
  rw [parse_cache_step_fresh c p now hfresh hnew]
  simp

/-- Witness for C10 (amended): a one-entry fresh cache grows to two entries. -/
theorem parse_cache_grows_when_fresh_witness :
    (∀ e ∈ ([("a", 0)] : Cache), ¬ (300 : ℚ) < 0 - e.2) ∧
    (parse_file_with_cache_step [("a", 0)] "b" 0 true).length = 1 + 1 :=
  ⟨by intro e he; rcases List.mem_singleton.mp he with rfl; norm_num,
   parse_cache_grows_when_fresh [("a", 0)] "b" 0
     (by intro e he; rcases List.mem_singleton.mp he with rfl; norm_num) rfl⟩

/-! ## C5/C6/C9 theorems -/

/-- C5 counterexample: the `.java` line
`// runtime.getRuntime().exec(userCmd)` *does* produce an RCE finding from
the template pass — `_is_false_positive` flags it, but the flag only
suppresses the line when the recomputed confidence (base 0.5, which
`_calculate_confidence` only ever raises, here to 0.75) is below 0.3, which
never happens; the context score 0.8 then passes the 0.3 threshold. -/
theorem comment_line_rce_counterexample :
    ((scan_template_files ⟨false, false, false⟩ [] [rceRule] [rceFile]).filter
      (fun fd => fd.vul_type = "RCE")).length = 1 := by decide

theorem le_if_addZ (c : Prop) [Decidable c] (d : ℤ) (hd : 0 ≤ d) {b x : ℤ}
    (h : b ≤ x) : b ≤ if c then x + d else x := by
  split_ifs <;> omega

theorem le_ite (c : Prop) [Decidable c] {b x y : ℤ} (hy : b ≤ y) (hx : b ≤ x) :
    b ≤ if c then y else x := by
  split_ifs <;> assumption

theorem le_dangerousStep (vt ll : String) (p : String × List String) {b sc : ℤ}
    (h : b ≤ sc) : b ≤ dangerousStep vt ll sc p := by
  unfold dangerousStep
  split_ifs <;> omega

theorem le_foldl_dangerous (vt ll : String) (l : List (String × List String))
    {b : ℤ} : ∀ {sc : ℤ}, b ≤ sc → b ≤ l.foldl (dangerousStep vt ll) sc := by
  induction l with
  | nil => intro sc h; exact h
  | cons p rest ih =>
      intro sc h
      exact ih (le_dangerousStep vt ll p h)

theorem le_ioBonus (ic oc : Nat) {b sc : ℤ} (h : b ≤ sc) : b ≤ ioBonus ic oc sc := by
  unfold ioBonus
  split_ifs <;> omega

theorem le_springBonus (sp : Nat) {b sc : ℤ} (h : b ≤ sc) : b ≤ springBonus sp sc := by
  unfold springBonus
  split_ifs <;> omega

/-- C5 amended: a line whose trimmed text starts with `//` *is* flagged by
`_is_false_positive`, but the scanner suppresses a flagged line only when
`_calculate_confidence(line, …, base)` falls below 0.3 — and
`_calculate_confidence` never returns less than its base score (every step
only adds), so with base 0.5/0.6 no comment line is ever suppressed, and such
lines can still yield findings of the corresponding vul_type. -/
theorem comment_line_flagged_but_not_suppressed :
    (∀ (line : String) (lines : List String) (n w : Nat) (r : TRule),
      strStartsWith (strStrip line) "//" = true →
      is_false_positive line lines n w r = true) ∧
    (∀ (line : String) (lines : List String) (n : Nat) (r : TRule) (b : ℤ),
      b ≤ 100 → b ≤ calculate_confidence line lines n r b) := by
  constructor
  · intro line lines n w r h
    simp [is_false_positive, h]
  · intro line lines n r b hb
    by_cases h0 : line = "" ∨ lines = [] ∨ n < 1 ∨ lines.length < n
    · unfold calculate_confidence
      rw [if_pos h0]
    · simp only [calculate_confidence, if_neg h0]
      unfold clamp100
      refine le_trans (le_min hb ?_) (le_max_right 0 _)
      apply le_if_addZ _ _ (by norm_num)
      apply le_if_addZ _ _ (by norm_num)
      apply le_if_addZ _ _ (by norm_num)
      apply le_ite
      · apply le_springBonus
        apply le_ioBonus
        apply le_foldl_dangerous
        apply le_if_addZ _ _ (by norm_num)
        apply le_if_addZ _ _ (by norm_num)
        exact le_if_addZ _ _ (by norm_num) le_rfl
      · apply le_foldl_dangerous
        apply le_if_addZ _ _ (by norm_num)
        apply le_if_addZ _ _ (by norm_num)
        exact le_if_addZ _ _ (by norm_num) le_rfl

/-- Witness for C5 (amended) at a concrete comment line and base 0.5. -/
theorem comment_line_flagged_but_not_suppressed_witness :
    is_false_positive "// x\n" ["// x\n"] 1 15 emptyRule = true ∧
    (50 : ℤ) ≤ calculate_confidence "// x\n" ["// x\n"] 1 emptyRule 50 :=
  ⟨comment_line_flagged_but_not_suppressed.1 "// x\n" ["// x\n"] 1 15 emptyRule
     (by decide),
   comment_line_flagged_but_not_suppressed.2 "// x\n" ["// x\n"] 1 emptyRule 50
     (by norm_num)⟩

/-- C6 counterexample: a grouped-path finding whose group confidence 0.25 is
below 0.3 is emitted with severity `Medium`, not `Low` — the demotion code's
first branch (`conf < 0.5 and severity == 'High'`) captures High-severity
rules before the `elif conf < 0.3` branch can fire. -/
theorem severity_demotion_counterexample :
    ∃ fd ∈ scan_template_files ⟨false, false, false⟩ [] [elRule] [elFile],
      fd.confidence < 30 ∧ fd.severity = "Medium" := by decide

/-- C6 amended: for every grouped-path finding, the emitted severity is
`demoteSeverity` of the group confidence and the rule's (defaulted) severity;
and `demoteSeverity` demotes `High` to `Medium` whenever the confidence is
below 0.5 — including below 0.3 — while confidences below 0.3 yield `Low`
only for non-`High` rule severities. -/
theorem severity_demotion_amended :
    (∀ (cfg : ScanCfg) (rule : TRule) (rel : String) (hitNums : List Nat)
      (groups : List (Nat × Nat × ℤ)) (st : ScanSt),
      ∀ fd ∈ (emitGroups cfg rule rel hitNums groups st).findings,
        fd ∈ st.findings ∨
          fd.severity = demoteSeverity fd.confidence (baseSeverity rule)) ∧
    (∀ (conf : ℤ) (sev : String),
      (conf < 50 ∧ sev = "High" → demoteSeverity conf sev = "Medium") ∧
      (conf < 30 → demoteSeverity conf sev =
        if sev = "High" then "Medium" else "Low")) := by
  constructor
  · intro cfg rule rel hitNums groups
    induction groups with
    | nil => intro st fd hfd; exact Or.inl hfd
    | cons g rest ih =>
        intro st fd hfd
        obtain ⟨gs, ge, gc⟩ := g
        rw [emitGroups] at hfd
        by_cases h1 : perFileRuleCap cfg ≤ countGet st.counts (rule.name, rel)
        · rw [if_pos h1] at hfd; exact Or.inl hfd
        · rw [if_neg h1] at hfd
          by_cases h2 : (rel, vulTypeOf rule) ∈ st.fileVul
          · rw [if_pos h2] at hfd; exact Or.inl hfd
          · rw [if_neg h2] at hfd
            rcases ih _ fd hfd with hmem | heq
            · rcases List.mem_append.mp hmem with hmem | hmem
              · exact Or.inl hmem
              · rcases List.mem_singleton.mp hmem with rfl
                exact Or.inr rfl
            · exact Or.inr heq
  · intro conf sev
    constructor
    · rintro ⟨h1, rfl⟩
      simp [demoteSeverity, h1]
    · intro h
      by_cases hs : sev = "High"
      · have h50 : conf < 50 := by omega
        simp [demoteSeverity, hs, h50]
      · simp [demoteSeverity, hs, h]

/-- Witness for C6 (amended): the demotion function at confidence 0.25 and
severity `High`. -/
theorem severity_demotion_amended_witness :
    (25 : ℤ) < 50 ∧ "High" = "High" ∧ demoteSeverity 25 "High" = "Medium" :=
  ⟨by norm_num, rfl, (severity_demotion_amended.2 25 "High").1 ⟨by norm_num, rfl⟩⟩

/-- C9 counterexample: with the stop predicate already returning true (so it
is observed at the very first poll, in the line loop of the regular rule on
the first file), the FORM_NO_CSRF block rule still appends a finding for the
*second* file — its block loop never polls the stop predicate, so findings
keep being added after the stop signal is observed and past the next file
boundary. -/
theorem stop_form_no_csrf_counterexample :
    ((scan_template_files ⟨false, false, true⟩ [] [rceRule, formRule]
      [formFile1, formFile2]).filter (fun fd => fd.file_path = "f2.jsp")).length
      = 1 := by decide

theorem lineLoop_stop (cfg : ScanCfg) (hstop : cfg.stop = true) (rule : TRule)
    (rel ext : String) (lines : List String) (counts : CountMap)
    (entries : List (Nat × String)) (evals : Nat) (seen : List SeenKey)
    (hits : List (Nat × ℤ)) :
    lineLoop cfg rule rel ext lines counts entries evals seen hits =
      (evals, seen, hits) := by
  cases entries with
  | nil => rfl
  | cons e rest =>
      obtain ⟨i, line⟩ := e
      simp [lineLoop, hstop]

theorem processRule_stop (cfg : ScanCfg) (hstop : cfg.stop = true)
    (rel ext : String) (lines : List String) (rule : TRule)
    (hreg : ¬ strUpper rule.name = "FORM_NO_CSRF") (acc : Nat × ScanSt) :
    processRule cfg rel ext lines acc rule = acc := by
  unfold processRule
  rw [if_neg hreg, lineLoop_stop cfg hstop]
  simp [groupHits, emitGroups]

theorem foldl_processRule_stop (cfg : ScanCfg) (hstop : cfg.stop = true)
    (rel ext : String) (lines : List String) :
    ∀ (l : List TRule), (∀ r ∈ l, ¬ strUpper r.name = "FORM_NO_CSRF") →
      ∀ acc, l.foldl (processRule cfg rel ext lines) acc = acc := by
  intro l
  induction l with
  | nil => intro _ acc; rfl
  | cons r rest ih =>
      intro hreg acc
      rw [List.foldl_cons,
        processRule_stop cfg hstop rel ext lines r (hreg r (List.mem_cons_self _ _))]
      exact ih (fun r' hr' => hreg r' (List.mem_cons_of_mem _ hr')) acc

theorem processFile_stop (cfg : ScanCfg) (hstop : cfg.stop = true)
    (includeExts : List String) (rules : List TRule)
    (hreg : ∀ r ∈ rules, ¬ strUpper r.name = "FORM_NO_CSRF")
    (st : ScanSt) (f : TFile) :
    processFile cfg includeExts rules st f = st := by
  unfold processFile
  have hsub : ∀ r ∈ (if extOfFile f.name ∈ javaRelatedExts then rules
      else rules.filter (fun r => extOfFile f.name ∈ ruleExts includeExts r)),
      ¬ strUpper r.name = "FORM_NO_CSRF" := by
    intro r hr
    split at hr
    · exact hreg r hr
    · exact hreg r (List.mem_of_mem_filter hr)
  show ((if extOfFile f.name ∈ javaRelatedExts then rules
    else rules.filter (fun r => extOfFile f.name ∈ ruleExts includeExts r)).foldl
      (processRule cfg f.rel (extOfFile f.name) f.lines) (0, st)).2 = st
  rw [foldl_processRule_stop cfg hstop _ _ _ _ hsub (0, st)]

/-- C9 amended: once the stop predicate is observed true, the *regular*
line-matched rules append no further findings for any file — the line loop
exits at its first poll — but the FORM_NO_CSRF block rule, whose loop never
polls the predicate, keeps emitting findings for every file it processes
(see the counterexample); stated here for rule bundles with no FORM_NO_CSRF
rule, for which the whole template scan returns no finding at all. -/
theorem stop_regular_rules_emit_nothing (cfg : ScanCfg) (hstop : cfg.stop = true)
    (includeExts : List String) (rules : List TRule) (files : List TFile)
    (hreg : ∀ r ∈ rules, ¬ strUpper r.name = "FORM_NO_CSRF") :
    scan_template_files cfg includeExts rules files = [] := by
  match rules with
  | [] => rfl
  | r0 :: rrest =>
      show (files.foldl (processFile cfg includeExts (r0 :: rrest)) ⟨[], [], [], []⟩).findings = []
      have : ∀ st : ScanSt,
          files.foldl (processFile cfg includeExts (r0 :: rrest)) st = st := by
        intro st
        induction files generalizing st with
        | nil => rfl
        | cons f rest ih =>
            rw [List.foldl_cons, processFile_stop cfg hstop includeExts _ hreg st f]
            exact ih st
      rw [this]

/-- Witness for C9 (amended): a stopped scan of the comment-line file with
only the regular RCE rule yields no findings. -/
theorem stop_regular_rules_emit_nothing_witness :
    scan_template_files ⟨false, false, true⟩ [] [rceRule] [rceFile] = [] :=
  stop_regular_rules_emit_nothing ⟨false, false, true⟩ rfl [] [rceRule] [rceFile]
    (by intro r hr; rcases List.mem_singleton.mp hr with rfl; decide)

/-! ## C7: deduplication invariants of the scanner -/

/-- `per_file_rule_count` lookup after a bump. -/
theorem countGet_bump (m : CountMap) (k k' : String × String) :
    countGet (countBump m k) k' =
      if k' = k then countGet m k' + 1 else countGet m k' := by
  induction m with
  | nil =>
      by_cases h : k' = k <;> simp [countBump, countGet, List.find?, h]
  | cons e rest ih =>
      obtain ⟨ek, ev⟩ := e
      by_cases hek : ek = k
      · subst hek
        by_cases h : k' = ek
        · subst h; simp [countBump, countGet, List.find?]
        · simp [countBump, countGet, List.find?, h]
      · by_cases h : k' = ek
        · subst h
          have : ¬ k' = k := fun hh => hek (hh ▸ rfl)
          simp [countBump, countGet, List.find?, hek, this]
        · have h1 : countGet ((ek, ev) :: countBump rest k) k'
              = countGet (countBump rest k) k' := by
            simp [countGet, List.find?, h]
          have h2 : countGet ((ek, ev) :: rest) k' = countGet rest k' := by
            simp [countGet, List.find?, h]
          simp only [countBump, if_neg hek]
          rw [h1, h2, ih]

theorem countFd_append_one (fds : List Finding) (fd : Finding) (n r : String)
    (hs : fd.sink = n) (hf : fd.file_path = r) :
    countFd (fds ++ [fd]) n r = countFd fds n r + 1 := by
  unfold countFd
  rw [List.filter_append, List.length_append]
  simp [hs, hf]

theorem countFd_append_zero (fds : List Finding) (fd : Finding) (n r : String)
    (h : ¬ (fd.sink = n ∧ fd.file_path = r)) :
    countFd (fds ++ [fd]) n r = countFd fds n r := by
  unfold countFd
  rw [List.filter_append, List.length_append]
  simp [h]

theorem patDecide_hit_fresh (rule : TRule) (applyMust : Bool) (rel ext : String)
    (lines : List String) (i : Nat) (line : String) (seen : List SeenKey)
    (pat : String → Bool) (c : ℤ)
    (h : patDecide rule applyMust rel ext lines i line seen pat = .hit c) :
    (rule.name, rel, i) ∉ seen := by
  by_contra hmem
  unfold patDecide at h
  simp only [hmem, if_true] at h
  split_ifs at h

/-- What one pattern-loop call does to `seen`: either no hit and `seen`
untouched, or a hit whose key was fresh and is now recorded. -/
theorem patLoop_spec (cfg : ScanCfg) (rule : TRule) (rel ext : String)
    (lines : List String) (i : Nat) (line : String) :
    ∀ (pats : List (String → Bool)) (evals : Nat) (seen : List SeenKey),
      (let r := patLoop cfg rule rel ext lines i line pats evals seen
       (r.2.2 = none ∧ r.2.1 = seen) ∨
       (∃ c, r.2.2 = some c ∧ r.2.1 = (rule.name, rel, i) :: seen ∧
         (rule.name, rel, i) ∉ seen)) := by
  intro pats
  induction pats with
  | nil => intro evals seen; exact Or.inl ⟨rfl, rfl⟩
  | cons pat rest ih =>
      intro evals seen
      show _ ∨ _
      rw [patLoop]
      by_cases h1 : cfg.stop
      · rw [if_pos h1]; exact Or.inl ⟨rfl, rfl⟩
      · rw [if_neg h1]
        by_cases h2 : maxRegexEvals cfg ≤ evals
        · rw [if_pos h2]; exact Or.inl ⟨rfl, rfl⟩
        · rw [if_neg h2]
          rcases hd : patDecide rule cfg.applyMust rel ext lines i line seen pat with
            _ | _ | c
          · exact ih _ _
          · exact Or.inl ⟨rfl, rfl⟩
          · exact Or.inr ⟨c, rfl, rfl,
              patDecide_hit_fresh rule cfg.applyMust rel ext lines i line seen pat c hd⟩

/-- What the line loop of one regular rule does: it appends to `hits` a block
of new hit lines drawn from the processed entries, in strictly ascending
order when the entries are ascending, each with a dedup key that was fresh
before the loop and is recorded in the final `seen`; the initial `seen` is
preserved. -/
theorem lineLoop_spec (cfg : ScanCfg) (rule : TRule) (rel ext : String)
    (lines : List String) (counts : CountMap) :
    ∀ (entries : List (Nat × String)) (evals : Nat) (seen : List SeenKey)
      (hits : List (Nat × ℤ)) (evals' : Nat) (seen' : List SeenKey)
      (hits' : List (Nat × ℤ)),
      lineLoop cfg rule rel ext lines counts entries evals seen hits =
        (evals', seen', hits') →
      ∃ new : List (Nat × ℤ),
        hits' = hits ++ new ∧
        (∀ p ∈ seen, p ∈ seen') ∧
        (∀ q ∈ new, (rule.name, rel, q.1) ∈ seen' ∧
          (rule.name, rel, q.1) ∉ seen ∧ q.1 ∈ entries.map Prod.fst) ∧
        (List.Pairwise (· < ·) (entries.map Prod.fst) →
          List.Pairwise (· < ·) (new.map Prod.fst)) := by
  intro entries
  induction entries with
  | nil =>
      intro evals seen hits evals' seen' hits' heq
      obtain ⟨rfl, rfl, rfl⟩ : evals = evals' ∧ seen = seen' ∧ hits = hits' := by
        simpa [lineLoop] using heq
      exact ⟨[], by simp, fun p hp => hp, by simp, by simp⟩
  | cons e rest ih =>
      obtain ⟨i, line⟩ := e
      intro evals seen hits evals' seen' hits' heq
      rw [lineLoop] at heq
      by_cases h1 : cfg.stop
      · rw [if_pos h1] at heq
        obtain ⟨rfl, rfl, rfl⟩ : evals = evals' ∧ seen = seen' ∧ hits = hits' := by
          simpa using heq
        exact ⟨[], by simp, fun p hp => hp, by simp, by simp⟩
      · rw [if_neg h1] at heq
        by_cases h2 : 10000 < strLen line
        · rw [if_pos h2] at heq
          obtain ⟨new, hh, hs, hq, hp⟩ := ih evals seen hits evals' seen' hits' heq
          refine ⟨new, hh, hs, ?_, ?_⟩
          · intro q hq'
            obtain ⟨a, b, c⟩ := hq q hq'
            exact ⟨a, b, List.mem_cons_of_mem _ c⟩
          · intro hasc
            exact hp (by rw [List.map_cons] at hasc; exact hasc.tail)
        · rw [if_neg h2] at heq
          by_cases h3 : ¬ rule.force_regex ∧ rule.hints ≠ [] ∧
              ¬ rule.hints.any (fun h => containsSub (strLower line) h)
          · rw [if_pos h3] at heq
            obtain ⟨new, hh, hs, hq, hp⟩ := ih evals seen hits evals' seen' hits' heq
            refine ⟨new, hh, hs, ?_, ?_⟩
            · intro q hq'
              obtain ⟨a, b, c⟩ := hq q hq'
              exact ⟨a, b, List.mem_cons_of_mem _ c⟩
            · intro hasc
              exact hp (by rw [List.map_cons] at hasc; exact hasc.tail)
          · rw [if_neg h3] at heq
            by_cases h4 : perFileRuleCap cfg ≤ countGet counts (rule.name, rel)
            · rw [if_pos h4] at heq
              obtain ⟨rfl, rfl, rfl⟩ : evals = evals' ∧ seen = seen' ∧ hits = hits' := by
                simpa using heq
              exact ⟨[], by simp, fun p hp => hp, by simp, by simp⟩
            · rw [if_neg h4] at heq
              rcases hp0 : patLoop cfg rule rel ext lines i line rule.patterns evals seen
                with ⟨e1, s1, res⟩
              have hsp := patLoop_spec cfg rule rel ext lines i line rule.patterns evals seen
              rw [hp0] at hsp heq
              rcases res with _ | c
              · rcases hsp with ⟨-, hseq⟩ | ⟨c, hc, -, -⟩
                · simp only at hseq
                  rw [hseq] at heq
                  obtain ⟨new, hh, hs, hq, hpw⟩ := ih e1 seen hits evals' seen' hits' heq
                  refine ⟨new, hh, hs, ?_, ?_⟩
                  · intro q hq'
                    obtain ⟨a, b, c⟩ := hq q hq'
                    exact ⟨a, b, List.mem_cons_of_mem _ c⟩
                  · intro hasc
                    exact hpw (by rw [List.map_cons] at hasc; exact hasc.tail)
                · simp at hc
              · rcases hsp with ⟨hc, -⟩ | ⟨c', hc, hseq, hfresh⟩
                · simp at hc
                · simp only [Option.some.injEq] at hc
                  subst hc
                  simp only at hseq hfresh
                  rw [hseq] at heq
                  obtain ⟨new', hh, hs, hq, hpw⟩ :=
                    ih e1 ((rule.name, rel, i) :: seen) (hits ++ [(i, c)])
                      evals' seen' hits' heq
                  refine ⟨(i, c) :: new', ?_, ?_, ?_, ?_⟩
                  · rw [hh]; simp
                  · intro p hp'
                    exact hs p (List.mem_cons_of_mem _ hp')
                  · intro q hq'
                    rcases List.mem_cons.mp hq' with rfl | hq'
                    · exact ⟨hs _ (List.mem_cons_self _ _), hfresh,
                        List.mem_cons_self _ _⟩
                    · obtain ⟨a, b, c2⟩ := hq q hq'
                      refine ⟨a, fun hmem => b (List.mem_cons_of_mem _ hmem),
                        List.mem_cons_of_mem _ c2⟩
                  · intro hasc
                    rw [List.map_cons] at hasc ⊢
                    refine List.Pairwise.cons ?_ (hpw hasc.tail)
                    intro j hj
                    rcases List.mem_map.mp hj with ⟨q, hq', rfl⟩
                    obtain ⟨-, -, c2⟩ := hq q hq'
                    exact List.rel_of_pairwise_cons hasc c2

theorem groupHitsGo_spec :
    ∀ (rest : List (Nat × ℤ)) (start prev : Nat) (conf : ℤ),
      (∀ l ∈ rest.map Prod.fst, prev < l) →
      List.Pairwise (· < ·) (rest.map Prod.fst) →
      start ≤ prev →
      (∀ g ∈ groupHitsGo start prev conf rest,
        (g.1 = start ∨ g.1 ∈ rest.map Prod.fst) ∧ start ≤ g.1) ∧
      List.Pairwise (· < ·) ((groupHitsGo start prev conf rest).map (fun g => g.1)) := by
  intro rest
  induction rest with
  | nil =>
      intro start prev conf _ _ hsp
      constructor
      · intro g hg
        rcases List.mem_singleton.mp hg with rfl
        exact ⟨Or.inl rfl, le_rfl⟩
      · simp only [groupHitsGo, List.map_cons, List.map_nil]
        exact List.pairwise_singleton _ _
  | cons p rest ih =>
      obtain ⟨l, c⟩ := p
      intro start prev conf hgt hasc hsp
      rw [List.map_cons] at hgt hasc
      have hl : prev < l := hgt l (List.mem_cons_self _ _)
      have hrest_gt : ∀ l' ∈ rest.map Prod.fst, l < l' :=
        fun l' hl' => List.rel_of_pairwise_cons hasc hl'
      rw [groupHitsGo]
      by_cases hadj : l = prev + 1
      · rw [if_pos hadj]
        have := ih start l (max conf c) hrest_gt hasc.tail
          (le_trans hsp (Nat.le_of_lt hl))
        refine ⟨?_, this.2⟩
        intro g hg
        obtain ⟨hmem, hge⟩ := this.1 g hg
        refine ⟨?_, hge⟩
        rcases hmem with h | h
        · exact Or.inl h
        · exact Or.inr (List.mem_cons_of_mem _ h)
      · rw [if_neg hadj]
        have hrec := ih l l c hrest_gt hasc.tail le_rfl
        constructor
        · intro g hg
          rcases List.mem_cons.mp hg with rfl | hg
          · exact ⟨Or.inl rfl, le_rfl⟩
          · obtain ⟨hmem, hge⟩ := hrec.1 g hg
            refine ⟨?_, le_trans hsp (le_trans (Nat.le_of_lt hl) hge)⟩
            rcases hmem with h | h
            · exact Or.inr (by rw [List.map_cons, h]; exact List.mem_cons_self _ _)
            · exact Or.inr (by rw [List.map_cons]; exact List.mem_cons_of_mem _ h)
        · rw [List.map_cons]
          refine List.Pairwise.cons ?_ hrec.2
          intro j hj
          rcases List.mem_map.mp hj with ⟨g, hg, rfl⟩
          have := (hrec.1 g hg).2
          omega

theorem groupHits_spec (hits : List (Nat × ℤ))
    (hasc : List.Pairwise (· < ·) (hits.map Prod.fst)) :
    (∀ g ∈ groupHits hits, g.1 ∈ hits.map Prod.fst) ∧
    List.Pairwise (· < ·) ((groupHits hits).map (fun g => g.1)) := by
  cases hits with
  | nil =>
      constructor
      · intro g hg
        cases hg
      · simp [groupHits]
  | cons p rest =>
      obtain ⟨l, c⟩ := p
      rw [List.map_cons] at hasc
      have hgt : ∀ l' ∈ rest.map Prod.fst, l < l' :=
        fun l' hl' => List.rel_of_pairwise_cons hasc hl'
      have := groupHitsGo_spec rest l l c hgt hasc.tail le_rfl
      refine ⟨?_, this.2⟩
      intro g hg
      rcases (this.1 g hg).1 with h | h
      · rw [List.map_cons, h]; exact List.mem_cons_self _ _
      · rw [List.map_cons]; exact List.mem_cons_of_mem _ h

theorem emitGroups_inv (cfg : ScanCfg) (rule : TRule) (rel : String)
    (hitNums : List Nat) :
    ∀ (groups : List (Nat × Nat × ℤ)) (st : ScanSt),
      ScanInv cfg st →
      (∀ g ∈ groups, ((rule.name : String), rel, g.1) ∈ st.seen) →
      (∀ g ∈ groups, ∀ fd ∈ st.findings,
        ¬ (fd.sink = rule.name ∧ fd.file_path = rel ∧ fd.line = g.1)) →
      List.Pairwise (· < ·) (groups.map (fun g => g.1)) →
      ScanInv cfg (emitGroups cfg rule rel hitNums groups st) := by
  intro groups
  induction groups with
  | nil => intro st hinv _ _ _; exact hinv
  | cons g rest ih =>
      obtain ⟨gs, ge, gc⟩ := g
      intro st hinv hkeys hdist hasc
      rw [emitGroups]
      by_cases h1 : perFileRuleCap cfg ≤ countGet st.counts (rule.name, rel)
      · rw [if_pos h1]; exact hinv
      · rw [if_neg h1]
        by_cases h2 : (rel, vulTypeOf rule) ∈ st.fileVul
        · rw [if_pos h2]; exact hinv
        · rw [if_neg h2]
          obtain ⟨ia, ib, ic, idd, ie, icap⟩ := hinv
          rw [List.map_cons] at hasc
          refine ih _ ⟨?_, ?_, ?_, ?_, ?_, ?_⟩ ?_ ?_ hasc.tail
          · intro fd' hfd'
            rcases List.mem_append.mp hfd' with hfd' | hfd'
            · exact List.mem_cons_of_mem _ (ia fd' hfd')
            · rcases List.mem_singleton.mp hfd' with rfl
              exact List.mem_cons_self _ _
          · intro fd' hfd'
            rcases List.mem_append.mp hfd' with hfd' | hfd'
            · exact ib fd' hfd'
            · rcases List.mem_singleton.mp hfd' with rfl
              exact hkeys (gs, ge, gc) (List.mem_cons_self _ _)
          · rw [List.pairwise_append]
            refine ⟨ic, List.pairwise_singleton _ _, ?_⟩
            intro a ha b hb
            rcases List.mem_singleton.mp hb with rfl
            rintro ⟨hrel, hvul⟩
            have h3 : a.file_path = rel := hrel
            have h4 : a.vul_type = vulTypeOf rule := hvul
            have hpair := ia a ha
            rw [h3, h4] at hpair
            exact h2 hpair
          · rw [List.pairwise_append]
            refine ⟨idd, List.pairwise_singleton _ _, ?_⟩
            intro a ha b hb
            rcases List.mem_singleton.mp hb with rfl
            exact hdist (gs, ge, gc) (List.mem_cons_self _ _) a ha
          · intro n r
            by_cases hk : n = rule.name ∧ r = rel
            · obtain ⟨rfl, rfl⟩ := hk
              rw [countFd_append_one _ _ _ _ rfl rfl, ie, countGet_bump, if_pos rfl]
            · have hne1 : ¬((n, r) = ((rule.name : String), rel)) := by
                intro hh
                exact hk ⟨congrArg Prod.fst hh, congrArg Prod.snd hh⟩
              rw [countFd_append_zero _ _ _ _
                  (fun hab => hk ⟨hab.1.symm, hab.2.symm⟩),
                ie, countGet_bump, if_neg hne1]
          · intro n r
            rw [countGet_bump]
            by_cases hk : (n, r) = ((rule.name : String), rel)
            · rw [if_pos hk, hk]
              omega
            · rw [if_neg hk]
              exact icap n r
          · intro g hg
            exact hkeys g (List.mem_cons_of_mem _ hg)
          · intro g hg fd' hfd'
            rcases List.mem_append.mp hfd' with hfd' | hfd'
            · exact hdist g (List.mem_cons_of_mem _ hg) fd' hfd'
            · rcases List.mem_singleton.mp hfd' with rfl
              rintro ⟨-, -, hline⟩
              have hlt : gs < g.1 :=
                List.rel_of_pairwise_cons hasc (List.mem_map.mpr ⟨g, hg, rfl⟩)
              have hgl : gs = g.1 := hline
              omega

theorem enum1_pairwise (lines : List String) :
    List.Pairwise (· < ·) ((enum1 lines).map Prod.fst) := by
  unfold enum1
  rw [List.map_map]
  have h1 : (Prod.fst ∘ fun p : Nat × String => (p.1 + 1, p.2)) =
      ((fun x => x + 1) ∘ Prod.fst) := rfl
  rw [h1, ← List.map_map, List.enum_map_fst]
  exact (List.pairwise_lt_range lines.length).map _ (fun a b h => by omega)

theorem formStep_inv (cfg : ScanCfg) (rule : TRule) (rel : String)
    (lines : List String) (st : ScanSt) (i : Nat) (hinv : ScanInv cfg st) :
    ScanInv cfg (formStep cfg rule rel lines st i) := by
  simp only [formStep]
  split_ifs with h1 h2 h3
  · obtain ⟨hfresh, hcap, hvul⟩ := h3
    obtain ⟨ia, ib, ic, idd, ie, icap⟩ := hinv
    refine ⟨?_, ?_, ?_, ?_, ?_, ?_⟩
    · intro fd' hfd'
      rcases List.mem_append.mp hfd' with hfd' | hfd'
      · exact List.mem_cons_of_mem _ (ia fd' hfd')
      · rcases List.mem_singleton.mp hfd' with rfl
        exact List.mem_cons_self _ _
    · intro fd' hfd'
      rcases List.mem_append.mp hfd' with hfd' | hfd'
      · exact List.mem_cons_of_mem _ (ib fd' hfd')
      · rcases List.mem_singleton.mp hfd' with rfl
        exact List.mem_cons_self _ _
    · rw [List.pairwise_append]
      refine ⟨ic, List.pairwise_singleton _ _, ?_⟩
      intro a ha b hb
      rcases List.mem_singleton.mp hb with rfl
      rintro ⟨hrel, hvul'⟩
      have h3 : a.file_path = rel := hrel
      have h4 : a.vul_type = vulTypeOf rule := hvul'
      have hpair := ia a ha
      rw [h3, h4] at hpair
      exact hvul hpair
    · rw [List.pairwise_append]
      refine ⟨idd, List.pairwise_singleton _ _, ?_⟩
      intro a ha b hb
      rcases List.mem_singleton.mp hb with rfl
      rintro ⟨hs, hf, hl⟩
      have hk := ib a ha
      rw [hs, hf, hl] at hk
      exact hfresh hk
    · intro n r
      by_cases hk : n = rule.name ∧ r = rel
      · obtain ⟨rfl, rfl⟩ := hk
        rw [countFd_append_one _ _ _ _ rfl rfl, ie, countGet_bump, if_pos rfl]
      · have hne1 : ¬((n, r) = ((rule.name : String), rel)) := by
          intro hh
          exact hk ⟨congrArg Prod.fst hh, congrArg Prod.snd hh⟩
        rw [countFd_append_zero _ _ _ _
            (fun hab => hk ⟨hab.1.symm, hab.2.symm⟩),
          ie, countGet_bump, if_neg hne1]
    · intro n r
      rw [countGet_bump]
      by_cases hk : (n, r) = ((rule.name : String), rel)
      · rw [if_pos hk, hk]
        omega
      · rw [if_neg hk]
        exact icap n r
  · exact hinv
  · exact hinv
  · exact hinv

theorem formLoop_inv (cfg : ScanCfg) (rule : TRule) (rel : String)
    (lines : List String) (st : ScanSt) (hinv : ScanInv cfg st) :
    ScanInv cfg (formLoop cfg rule rel lines st) := by
  unfold formLoop
  generalize List.range lines.length = idxs
  induction idxs generalizing st with
  | nil => exact hinv
  | cons i rest ih =>
      rw [List.foldl_cons]
      exact ih _ (formStep_inv cfg rule rel lines st i hinv)

theorem processRule_inv (cfg : ScanCfg) (rel ext : String) (lines : List String)
    (rule : TRule) (acc : Nat × ScanSt) (hinv : ScanInv cfg acc.2) :
    ScanInv cfg (processRule cfg rel ext lines acc rule).2 := by
  unfold processRule
  by_cases hform : strUpper rule.name = "FORM_NO_CSRF"
  · rw [if_pos hform]
    exact formLoop_inv cfg rule rel lines acc.2 hinv
  · rw [if_neg hform]
    rcases hr : lineLoop cfg rule rel ext lines acc.2.counts (enum1 lines) acc.1
        acc.2.seen [] with ⟨e1, s1, hits⟩
    obtain ⟨new, hh, hs, hq, hpw⟩ := lineLoop_spec cfg rule rel ext lines
      acc.2.counts (enum1 lines) acc.1 acc.2.seen [] e1 s1 hits hr
    simp only [List.nil_append] at hh
    subst hh
    simp only [hr]
    have hinv' : ScanInv cfg ({ acc.2 with seen := s1 } : ScanSt) :=
      ⟨hinv.1, fun fd hfd => hs _ (hinv.2.1 fd hfd), hinv.2.2.1, hinv.2.2.2.1,
        hinv.2.2.2.2.1, hinv.2.2.2.2.2⟩
    have hasc : List.Pairwise (· < ·) (hits.map Prod.fst) := hpw (enum1_pairwise lines)
    obtain ⟨hmem, hgasc⟩ := groupHits_spec hits hasc
    refine emitGroups_inv cfg rule rel (hits.map (·.1)) (groupHits hits)
      { acc.2 with seen := s1 } hinv' ?_ ?_ hgasc
    · intro g hg
      rcases List.mem_map.mp (hmem g hg) with ⟨q, hq', hfst⟩
      obtain ⟨hin, -, -⟩ := hq q hq'
      show ((rule.name : String), rel, g.1) ∈ s1
      rw [← hfst]
      exact hin
    · intro g hg fd hfd
      rcases List.mem_map.mp (hmem g hg) with ⟨q, hq', hfst⟩
      obtain ⟨-, hnotin, -⟩ := hq q hq'
      rintro ⟨hs', hf', hl'⟩
      have hk := hinv.2.1 fd hfd
      rw [hs', hf', hl'] at hk
      rw [hfst] at hnotin
      exact hnotin hk

theorem processFile_inv (cfg : ScanCfg) (includeExts : List String)
    (rules : List TRule) (st : ScanSt) (f : TFile) (hinv : ScanInv cfg st) :
    ScanInv cfg (processFile cfg includeExts rules st f) := by
  have hfold : ∀ (l : List TRule) (acc : Nat × ScanSt), ScanInv cfg acc.2 →
      ScanInv cfg ((l.foldl (processRule cfg f.rel (extOfFile f.name) f.lines) acc).2) := by
    intro l
    induction l with
    | nil => intro acc h; exact h
    | cons r rest ih =>
        intro acc h
        rw [List.foldl_cons]
        exact ih _ (processRule_inv cfg f.rel (extOfFile f.name) f.lines r acc h)
  show ScanInv cfg
    ((if extOfFile f.name ∈ javaRelatedExts then rules
      else rules.filter (fun r => extOfFile f.name ∈ ruleExts includeExts r)).foldl
        (processRule cfg f.rel (extOfFile f.name) f.lines) (0, st)).2
  exact hfold _ (0, st) hinv

/-- C7: within a single template-scanner run, no two findings share the
`(relpath, vul_type)` pair, no two findings share the line-level key
`(rule_name, relpath, line)` (`line` being the group start resp. the
FORM_NO_CSRF form line that the `seen` set dedups on), and per
`(rule_name, relpath)` at most `5` findings are emitted in full mode and at
most `1` in lite mode. -/
theorem scan_template_files_dedup (cfg : ScanCfg) (includeExts : List String)
    (rules : List TRule) (files : List TFile) :
    List.Pairwise (fun a b : Finding =>
      ¬(a.file_path = b.file_path ∧ a.vul_type = b.vul_type))
      (scan_template_files cfg includeExts rules files) ∧
    List.Pairwise (fun a b : Finding =>
      ¬(a.sink = b.sink ∧ a.file_path = b.file_path ∧ a.line = b.line))
      (scan_template_files cfg includeExts rules files) ∧
    (∀ n r : String,
      ((scan_template_files cfg includeExts rules files).filter
        (fun fd => fd.sink = n ∧ fd.file_path = r)).length ≤ perFileRuleCap cfg) := by
  have hinit : ScanInv cfg ⟨[], [], [], []⟩ := by
    refine ⟨?_, ?_, List.Pairwise.nil, List.Pairwise.nil, ?_, ?_⟩
    · intro fd h; cases h
    · intro fd h; cases h
    · intro n r; rfl
    · intro n r; exact Nat.zero_le _
  match rules with
  | [] =>
      refine ⟨List.Pairwise.nil, List.Pairwise.nil, ?_⟩
      intro n r
      exact Nat.zero_le _
  | r0 :: rrest =>
      have hfold : ∀ (fl : List TFile) (st0 : ScanSt), ScanInv cfg st0 →
          ScanInv cfg (fl.foldl (processFile cfg includeExts (r0 :: rrest)) st0) := by
        intro fl
        induction fl with
        | nil => intro st0 h; exact h
        | cons f rest ih =>
            intro st0 h
            rw [List.foldl_cons]
            exact ih _ (processFile_inv cfg includeExts _ st0 f h)
      have hfinal : ScanInv cfg
          (files.foldl (processFile cfg includeExts (r0 :: rrest)) ⟨[], [], [], []⟩) :=
        hfold files ⟨[], [], [], []⟩ hinit
      exact ⟨hfinal.2.2.1, hfinal.2.2.2.1, fun n r => by
        rw [show ((scan_template_files cfg includeExts (r0 :: rrest) files).filter
            (fun fd => fd.sink = n ∧ fd.file_path = r)).length
            = countFd (files.foldl (processFile cfg includeExts (r0 :: rrest))
                ⟨[], [], [], []⟩).findings n r from rfl]
        rw [hfinal.2.2.2.2.1 n r]
        exact hfinal.2.2.2.2.2 n r⟩
